import Mathlib

/-!
Verification development for the programs of the repository.

`BinarySearchTree`: order-augmented binary search tree (`binary_search_tree.cpp`), a shallow
embedding of `class BST` and of its `node` structure.

* A `node *` is either `NULL` or points to an exclusively owned node, so a pointer is
  embedded as a value of the inductive type `Tree`.
* `int` keys and `int` sizes are embedded as `Int`.  Keys are only compared.  Sizes are only
  incremented by one per stored node, so they stay far below `2 ^ 31` for every tree that
  fits in memory.
* The private helpers taking a `node *` live in the namespace `Tree`; the public methods of
  the class live in the namespace `BST` and act on the root.

`KaratsubaMultiplication` (`karatsuba_multiplication.cpp`): `unsigned long long` values are
natural numbers and their arithmetic is reduced modulo `2 ^ 64`.

`MergeSort` (`merge_sort.cpp`) and `InversionCount` (`inversion_count.cpp`): an `int *` is the
map from index to cell content, `int` cells are embedded as `Int` and are only compared and
copied.  Indices are natural numbers: the local array `int temp[length]` lives on the stack,
which keeps every index far below `2 ^ 31`.  Each loop is a recursive function on the
variables that the loop changes.

`StrassenMatrixMultiplication` (`strassen_matrix_multiplication.cpp`): an `int **` is the map
from row and column to cell content.  A cell is an `Int`, and every `int` addition,
subtraction and multiplication of the program is followed by `wrap`, the two's-complement
wrap-around to 32 bits that the compiled program performs on overflow.
-/

namespace BinarySearchTree

/-- Embedding of `node *`: `nil` is `NULL`, `node key value left right size` is a pointer to a
`struct node` with these five fields. -/
inductive Tree where
  | nil : Tree
  | node (key : Int) (value : String) (left : Tree) (right : Tree) (size : Int) : Tree
  deriving DecidableEq, Repr

namespace Tree

/-- Embedding of `int BST::size(node *tree)`: the stored `size` field, `0` for `NULL`. -/
def size : Tree → Int
  | nil => 0
  | node _ _ _ _ sz => sz

/-- Embedding of `node *BST::min(node *tree)`: the leftmost node, `NULL` for `NULL`. -/
def min : Tree → Tree
  | nil => nil
  | node k v nil r sz => node k v nil r sz
  | node _ _ (node lk lv ll lr lsz) _ _ => min (node lk lv ll lr lsz)

/-- Embedding of `node *BST::max(node *tree)`: the rightmost node, `NULL` for `NULL`. -/
def max : Tree → Tree
  | nil => nil
  | node k v l nil sz => node k v l nil sz
  | node _ _ _ (node rk rv rl rr rsz) _ => max (node rk rv rl rr rsz)

/-- Embedding of `node *BST::insertRecursively(node *tree_node, int key, string value)`. -/
def insertRecursively : Tree → Int → String → Tree
  | nil, key, value => node key value nil nil 1
  | node k v l r _, key, value =>
    if key < k then
      let new_node := insertRecursively l key value
      node k v new_node r (1 + size new_node + size r)
    else if key > k then
      let new_node := insertRecursively r key value
      node k v l new_node (1 + size l + size new_node)
    else
      node k value l r (1 + size l + size r)

/-- Embedding of `node *BST::delete_min(node *tree_node)`.  The `size` field of the nodes on
the walked path is not written. -/
def delete_min : Tree → Tree
  | nil => nil
  | node _ _ nil r _ => r
  | node k v (node lk lv ll lr lsz) r sz => node k v (delete_min (node lk lv ll lr lsz)) r sz

/-- Embedding of `node *BST::delete_node(node *tree_node, int key)`.

In the two-child branch the replacement node comes from `malloc`; the source assigns its
`key`, `left`, `right` and (last) `size`, and never its `value`.  The content of that field
is whatever the allocation holds; it is the parameter `uninit`.  At most one allocation
happens per call, because `delete_min` allocates nothing.

The branch `Tree.min r = nil` cannot be taken, because `r` is not `NULL` there. -/
def delete_node (uninit : String) : Tree → Int → Tree
  | nil, _ => nil
  | node k v l r _, key =>
    if key < k then
      let l1 := delete_node uninit l key
      node k v l1 r (1 + size l1 + size r)
    else if key > k then
      let r1 := delete_node uninit r key
      node k v l r1 (1 + size l + size r1)
    else
      match l, r with
      | nil, r => r
      | l, nil => l
      | l, r =>
        match Tree.min r with
        | nil => nil
        | node sk _ _ _ _ =>
          let r1 := delete_min r
          node sk uninit l r1 (1 + size l + size r1)

/-- Embedding of `int BST::rank(node *tree_node, int key)`. -/
def rank : Tree → Int → Int
  | nil, _ => -1
  | node k _ l r _, key =>
    if key = k then size l
    else if key < k then rank l key
    else size l + 1 + rank r key

/-- Embedding of `int BST::select(node *tree_node, int ith_order)`. -/
def select : Tree → Int → Int
  | nil, _ => -1
  | node k _ l r _, ith_order =>
    let current_order := 1 + size l
    if ith_order = current_order then k
    else if ith_order < current_order then select l ith_order
    else select r (ith_order - current_order)

/-! ### Observations used to state the properties -/

/-- Keys of the tree in in-order (left subtree, node, right subtree). -/
def keys : Tree → List Int
  | nil => []
  | node k _ l r _ => keys l ++ k :: keys r

/-- Key/value entries of the tree in in-order. -/
def entries : Tree → List (Int × String)
  | nil => []
  | node k v l r _ => entries l ++ (k, v) :: entries r

/-- Number of nodes reachable from the pointer. -/
def count : Tree → Nat
  | nil => 0
  | node _ _ l r _ => count l + 1 + count r

/-- The tree with every value forgotten: shape, keys and stored sizes remain. -/
def skeleton : Tree → Tree
  | nil => nil
  | node k _ l r sz => node k "" (skeleton l) (skeleton r) sz

/-- Invariant I1 (order): at every node, every key of the left subtree is smaller than the
node's key and every key of the right subtree is larger. -/
def I1 : Tree → Prop
  | nil => True
  | node k _ l r _ => (∀ x ∈ keys l, x < k) ∧ (∀ x ∈ keys r, k < x) ∧ I1 l ∧ I1 r

/-- Invariant I2 (size): at every node, the stored size is
`1 + size(left) + size(right)`, an absent child counting `0`. -/
def I2 : Tree → Prop
  | nil => True
  | node _ _ l r sz => sz = 1 + size l + size r ∧ I2 l ∧ I2 r

instance decI1 : (t : Tree) → Decidable (I1 t)
  | nil => isTrue trivial
  | node k _ l r _ =>
    have := decI1 l
    have := decI1 r
    inferInstanceAs (Decidable ((∀ x ∈ keys l, x < k) ∧ (∀ x ∈ keys r, k < x) ∧ I1 l ∧ I1 r))

instance decI2 : (t : Tree) → Decidable (I2 t)
  | nil => isTrue trivial
  | node _ _ l r sz =>
    have := decI2 l
    have := decI2 r
    inferInstanceAs (Decidable (sz = 1 + size l + size r ∧ I2 l ∧ I2 r))

end Tree

/-- Embedding of `class BST`: its only data member is the root pointer. -/
structure BST where
  root : Tree
  deriving DecidableEq, Repr

namespace BST

/-- Embedding of the state built by `BST()`: the driver reads size `0` from it. -/
def empty : BST := ⟨Tree.nil⟩

/-- Embedding of `void BST::insert(int key, string value)`. -/
def insert (t : BST) (key : Int) (value : String) : BST :=
  ⟨Tree.insertRecursively t.root key value⟩

/-- Embedding of `int BST::size()`. -/
def size (t : BST) : Int := Tree.size t.root

/-- Embedding of `void BST::delete_node(int key)`; `uninit` as in `Tree.delete_node`. -/
def delete_node (uninit : String) (t : BST) (key : Int) : BST :=
  ⟨Tree.delete_node uninit t.root key⟩

/-- Embedding of `int BST::rank(int key)`. -/
def rank (t : BST) (key : Int) : Int := Tree.rank t.root key

/-- Embedding of `int BST::select(int ith_order)`. -/
def select (t : BST) (ith_order : Int) : Int := Tree.select t.root ith_order

/-- Embedding of `int BST::min()`. -/
def min (t : BST) : Int :=
  match Tree.min t.root with
  | Tree.nil => -1
  | Tree.node k _ _ _ _ => k

/-- Embedding of `int BST::max()`. -/
def max (t : BST) : Int :=
  match Tree.max t.root with
  | Tree.nil => -1
  | Tree.node k _ _ _ _ => k

/-- Embedding of the `while (!queue.empty())` loop of `BST::level_order`, on the queue and
the result list.  `fuel` bounds the number of iterations; `none` means that the bound was
reached while the queue was not empty. -/
def level_order_loop : Nat → List Tree → List Int → Option (List Int)
  | _, [], result => some result
  | 0, _ :: _, _ => none
  | fuel + 1, Tree.nil :: queue, result => level_order_loop fuel queue result
  | fuel + 1, Tree.node k _ l r _ :: queue, result =>
    level_order_loop fuel (queue ++ [l, r]) (result ++ [k])

/-- Embedding of `list<int> BST::level_order()`, with the iteration bound `fuel` of its loop. -/
def level_order (fuel : Nat) (t : BST) : Option (List Int) :=
  match t.root with
  | Tree.nil => some []
  | Tree.node k v l r sz => level_order_loop fuel [Tree.node k v l r sz] []

/-- Embedding of the loop of `BST::floor`, on the local variables `tree_node` and `floor`.
The third test of the source, `tree_node->key < arg_key`, is the only case left there. -/
def floor_loop : Tree → Int → Int → Int
  | Tree.nil, _, floor => floor
  | Tree.node k _ l r _, arg_key, floor =>
    if k = arg_key then k
    else if k > arg_key then floor_loop l arg_key floor
    else floor_loop r arg_key k

/-- Embedding of `int BST::floor(int arg_key)`. -/
def floor (t : BST) (arg_key : Int) : Int := floor_loop t.root arg_key (-1)

/-- Embedding of the loop of `BST::ceil`, on the local variables `tree_node` and `ceil`.
The third test of the source, `tree_node->key > arg_key`, is the only case left there. -/
def ceil_loop : Tree → Int → Int → Int
  | Tree.nil, _, ceil => ceil
  | Tree.node k _ l r _, arg_key, ceil =>
    if k = arg_key then k
    else if k < arg_key then ceil_loop r arg_key ceil
    else ceil_loop l arg_key k

/-- Embedding of `int BST::ceil(int arg_key)`. -/
def ceil (t : BST) (arg_key : Int) : Int := ceil_loop t.root arg_key (-1)

/-- The tree built by the driver `main`: inserts of 5, 7, 6, 3, 8, 4, 2 with empty values. -/
def driver : BST :=
  ((((((empty.insert 5 "").insert 7 "").insert 6 "").insert 3 "").insert 8 "").insert 4 "").insert 2 ""

end BST

namespace Tree

/-- Keys of the nodes at depth `d` below the pointer, left to right (the root has depth 0). -/
def keysAtDepth : Nat → Tree → List Int
  | _, nil => []
  | 0, node k _ _ _ _ => [k]
  | d + 1, node _ _ l r _ => keysAtDepth d l ++ keysAtDepth d r

/-- Number of levels of the tree: `0` for `NULL`. -/
def height : Tree → Nat
  | nil => 0
  | node _ _ l r _ => Nat.max (height l) (height r) + 1

/-- Breadth-first key sequence: the keys at depth 0, then at depth 1, and so on, left to
right within each depth. -/
def breadth_first (t : Tree) : List Int :=
  (List.range (height t)).flatMap (fun d => keysAtDepth d t)

/-- The pointer `tree_node->left`, `NULL` below `NULL`. -/
def left : Tree → Tree
  | nil => nil
  | node _ _ l _ _ => l

/-- The pointer `tree_node->right`, `NULL` below `NULL`. -/
def right : Tree → Tree
  | nil => nil
  | node _ _ _ r _ => r

/-- The node that the descent of `delete_node` reaches for `key`: the node holding `key` on
the search path, `NULL` when the path ends without meeting it. -/
def find : Tree → Int → Tree
  | nil, _ => nil
  | node k v l r sz, key =>
    if key < k then find l key
    else if key > k then find r key
    else node k v l r sz

/-- The node of `key` has two children and its right child has a left child, so that the
successor lies strictly below the right child. -/
def deep_successor (t : Tree) (key : Int) : Prop :=
  left (find t key) ≠ nil ∧ right (find t key) ≠ nil ∧ left (right (find t key)) ≠ nil

instance decDeepSuccessor (t : Tree) (key : Int) : Decidable (deep_successor t key) :=
  inferInstanceAs (Decidable
    (left (find t key) ≠ nil ∧ right (find t key) ≠ nil ∧ left (right (find t key)) ≠ nil))

end Tree

namespace BST

/-- Number of loop iterations that a queue costs: one per queued pointer and two more per
node below it. -/
def queue_weight (queue : List Tree) : Nat :=
  (queue.map (fun t => 2 * Tree.count t + 1)).sum

/-- Pointers that the loop enqueues while it consumes the queue: the two children of every
queued node. -/
def queue_children (queue : List Tree) : List Tree :=
  queue.flatMap (fun t =>
    match t with
    | Tree.nil => []
    | Tree.node _ _ l r _ => [l, r])

/-- Keys at depth `d` of the queued trees, in queue order. -/
def queue_keysAtDepth (d : Nat) (queue : List Tree) : List Int :=
  queue.flatMap (Tree.keysAtDepth d)

/-- Keys of the first `n` levels of the queued trees, level by level. -/
def queue_levels (n : Nat) (queue : List Tree) : List Int :=
  (List.range n).flatMap (fun d => queue_keysAtDepth d queue)

end BST

end BinarySearchTree

namespace KaratsubaMultiplication

/-- Modelled from the spec: `(int)log10(num)` of `<math.h>`, taken as the exact integer part
of the decimal logarithm, that is the number of decimal digits of `num` minus one (`0` for
`num < 10`).  The first argument bounds the number of divisions by ten; `num` itself is
always enough. -/
def log10 : Nat → Nat → Nat
  | 0, _ => 0
  | fuel + 1, num => if num < 10 then 0 else log10 fuel (num / 10) + 1

/-- Embedding of `size_t len(_bigint num)`: `(bool)num * (int)log10(num) + 1`. -/
def len (num : Nat) : Nat := (if num = 0 then 0 else 1) * log10 num num + 1

/-- Embedding of `unsigned long long multiply(_bigint num1, _bigint num2)`.

`unsigned long long` arithmetic is taken modulo `2 ^ 64`.  Modelled from the spec: `pow(10, n)`
is the exact integer power and the arithmetic of the return expression is exact, its result
being reduced modulo `2 ^ 64` on conversion to the return type.  `fuel` bounds the recursion
depth; `none` means that the bound was reached. -/
def multiply : Nat → Nat → Nat → Option Nat
  | 0, _, _ => none
  | fuel + 1, num1, num2 =>
    let length := min (len num1) (len num2)
    if length = 1 then some (num1 * num2 % 2 ^ 64)
    else
      let denominator := 10 ^ (length / 2)
      let a := num1 / denominator
      let b := num1 % denominator
      let c := num2 / denominator
      let d := num2 % denominator
      match multiply fuel a c, multiply fuel b d,
        multiply fuel ((a + b) % 2 ^ 64) ((c + d) % 2 ^ 64) with
      | some ac, some bd, some aplusb_cplusd =>
        let ad_plus_bc := (aplusb_cplusd + (2 ^ 64 - ac) + (2 ^ 64 - bd)) % 2 ^ 64
        some ((10 ^ length * ac + 10 ^ (length / 2) * ad_plus_bc + bd) % 2 ^ 64)
      | _, _, _ => none

end KaratsubaMultiplication

namespace MergeSort

/-- Embedding of the first `while` loop of `merge`, on the local variables `temp`, `index1`,
`index2` and `temp_index`.  An `int *` is embedded as the map from index to cell content. -/
def merge_loop (array : Nat → Int) (end_one end_two : Nat) (temp : Nat → Int)
    (index1 index2 temp_index : Nat) : (Nat → Int) × Nat × Nat × Nat :=
  if index1 ≤ end_one ∧ index2 ≤ end_two then
    if array index1 < array index2 then
      merge_loop array end_one end_two (Function.update temp temp_index (array index1))
        (index1 + 1) index2 (temp_index + 1)
    else
      merge_loop array end_one end_two (Function.update temp temp_index (array index2))
        index1 (index2 + 1) (temp_index + 1)
  else (temp, index1, index2, temp_index)
termination_by (end_one + 1 - index1) + (end_two + 1 - index2)

/-- Embedding of the loops `while (index <= end) temp[temp_index++] = array[index++];`. -/
def copy_rest (array : Nat → Int) (end_ : Nat) (temp : Nat → Int) (index temp_index : Nat) :
    (Nat → Int) × Nat × Nat :=
  if index ≤ end_ then
    copy_rest array end_ (Function.update temp temp_index (array index)) (index + 1)
      (temp_index + 1)
  else (temp, index, temp_index)
termination_by end_ + 1 - index

/-- Embedding of the loop `for (index = start_one; index <= end_two; index++)
array[index] = temp[index];`. -/
def copy_back (temp : Nat → Int) (end_two : Nat) (array : Nat → Int) (index : Nat) : Nat → Int :=
  if index ≤ end_two then
    copy_back temp end_two (Function.update array index (temp index)) (index + 1)
  else array
termination_by end_two + 1 - index

/-- Embedding of `void merge(...)`: the new `array` and the new `temp`. -/
def merge (array temp : Nat → Int) (start_one end_one start_two end_two : Nat) :
    (Nat → Int) × (Nat → Int) :=
  let s1 := merge_loop array end_one end_two temp start_one start_two start_one
  let s2 := copy_rest array end_one s1.1 s1.2.1 s1.2.2.2
  let s3 := copy_rest array end_two s2.1 s1.2.2.1 s2.2.2
  (copy_back s3.1 end_two array start_one, s3.1)

/-- Embedding of `void sort(...)`: the new `array` and the new `temp`. -/
def sort (array temp : Nat → Int) (start end_ : Nat) : (Nat → Int) × (Nat → Int) :=
  if start ≥ end_ then (array, temp)
  else
    let middle := (start + end_) / 2
    let left := sort array temp start middle
    let right := sort left.1 left.2 (middle + 1) end_
    merge right.1 right.2 start middle (middle + 1) end_
termination_by end_ - start
decreasing_by
  all_goals simp_wf
  all_goals omega

/-- Embedding of `void merge_sort(int *array, size_t length)`: the new `array`.  `temp` is
the content of the uninitialised local array; `length - 1` is computed in `size_t`. -/
def merge_sort (temp : Nat → Int) (array : Nat → Int) (length : Nat) : Nat → Int :=
  (sort array temp 0 (if length = 0 then 2 ^ 64 - 1 else length - 1)).1

/-- The cells `start, ..., start + n - 1` of an array, as a list. -/
def segment (array : Nat → Int) (start n : Nat) : List Int :=
  (List.range' start n).map array

/-- The array whose first cells hold the elements of the list. -/
def ofList (l : List Int) : Nat → Int := fun i => l.getD i 0

/-- The content of `temp` after the three `while` loops of `merge`. -/
def merged_temp (array : Nat → Int) (end_one end_two : Nat) (temp : Nat → Int)
    (index1 index2 temp_index : Nat) : Nat → Int :=
  let s1 := merge_loop array end_one end_two temp index1 index2 temp_index
  let s2 := copy_rest array end_one s1.1 s1.2.1 s1.2.2.2
  let s3 := copy_rest array end_two s2.1 s1.2.2.1 s2.2.2
  s3.1

end MergeSort

namespace InversionCount

/-- Embedding of the first `while` loop of `count_split_inversions`, on the local variables
`temp`, `index1`, `index2`, `temp_index` and `inversion_count`.  An `int *` is embedded as the
map from index to cell content. -/
def count_loop (array : Nat → Int) (end_one end_two : Nat) (temp : Nat → Int)
    (index1 index2 temp_index inversion_count : Nat) : (Nat → Int) × Nat × Nat × Nat × Nat :=
  if index1 ≤ end_one ∧ index2 ≤ end_two then
    if array index1 < array index2 then
      count_loop array end_one end_two (Function.update temp temp_index (array index1))
        (index1 + 1) index2 (temp_index + 1) inversion_count
    else
      count_loop array end_one end_two (Function.update temp temp_index (array index2))
        index1 (index2 + 1) (temp_index + 1) ((inversion_count + (end_one - index1 + 1)) % 2 ^ 64)
  else (temp, index1, index2, temp_index, inversion_count)
termination_by (end_one + 1 - index1) + (end_two + 1 - index2)

/-- Embedding of the loops `while (index <= end) temp[temp_index++] = array[index++];`. -/
def copy_rest_loop (array : Nat → Int) (end_ : Nat) (temp : Nat → Int) (index temp_index : Nat) :
    (Nat → Int) × Nat × Nat :=
  if index ≤ end_ then
    copy_rest_loop array end_ (Function.update temp temp_index (array index)) (index + 1)
      (temp_index + 1)
  else (temp, index, temp_index)
termination_by end_ + 1 - index

/-- Embedding of the loop `for (index = start_one; index <= end_two; index++)
array[index] = temp[index];`. -/
def copy_back_loop (temp : Nat → Int) (end_two : Nat) (array : Nat → Int) (index : Nat) : Nat → Int :=
  if index ≤ end_two then
    copy_back_loop temp end_two (Function.update array index (temp index)) (index + 1)
  else array
termination_by end_two + 1 - index

/-- Embedding of `count_split_inversions`: the new `array`, the new `temp` and the returned
count. -/
def count_split_inversions (array temp : Nat → Int)
    (start_one end_one start_two end_two : Nat) : (Nat → Int) × (Nat → Int) × Nat :=
  let s1 := count_loop array end_one end_two temp start_one start_two start_one 0
  let s2 := copy_rest_loop array end_one s1.1 s1.2.1 s1.2.2.2.1
  let s3 := copy_rest_loop array end_two s2.1 s1.2.2.1 s2.2.2
  (copy_back_loop s3.1 end_two array start_one, s3.1, s1.2.2.2.2)

/-- Embedding of `sort_and_count`: the new `array`, the new `temp` and the returned count. -/
def sort_and_count (array temp : Nat → Int) (start end_ : Nat) :
    (Nat → Int) × (Nat → Int) × Nat :=
  if start ≥ end_ then (array, temp, 0)
  else
    let middle := (start + end_) / 2
    let left := sort_and_count array temp start middle
    let right := sort_and_count left.1 left.2.1 (middle + 1) end_
    let split := count_split_inversions right.1 right.2.1 start middle (middle + 1) end_
    (split.1, split.2.1, (left.2.2 + right.2.2 + split.2.2) % 2 ^ 64)
termination_by end_ - start
decreasing_by
  all_goals simp_wf
  all_goals omega

/-- Embedding of `inversion_count`.  `temp` is the content of the uninitialised local array;
`length - 1` is computed in `size_t`. -/
def inversion_count (temp : Nat → Int) (array : Nat → Int) (length : Nat) : Nat :=
  (sort_and_count array temp 0 (if length = 0 then 2 ^ 64 - 1 else length - 1)).2.2

/-- Number of inversions of the first `length` cells, as the header of the file defines
them: pairs `i < j` with `A[i] > A[j]`. -/
def inversions (array : Nat → Int) (length : Nat) : Nat :=
  ((List.range length).flatMap (fun j =>
    (List.range j).filter (fun i => decide (array i > array j)))).length

end InversionCount

namespace StrassenMatrixMultiplication

/-- Embedding of a counting loop `for (int i = 0; i < n; i++) body`, on the state that the
body changes. -/
def for_loop {σ : Type} (n : Nat) (body : Nat → σ → σ) (s : σ) : σ :=
  (List.range n).foldl (fun s i => body i s) s

/-- Embedding of the assignment `matrix[row][col] = value` on an `int **`, which is embedded
as the map from row and column to cell content. -/
def set (matrix : Nat → Nat → Int) (row col : Nat) (value : Int) : Nat → Nat → Int :=
  Function.update matrix row (Function.update (matrix row) col value)

/-- Value that a 32-bit `int` holds after an arithmetic operation whose exact result is `x`:
the two's-complement representative of `x` modulo `2 ^ 32`, between `-2 ^ 31` and
`2 ^ 31 - 1`. -/
def wrap (x : Int) : Int := (x + 2 ^ 31) % 2 ^ 32 - 2 ^ 31

/-- Embedding of `class Matrix`: the cells and the size `n`. -/
structure Matrix where
  matrix : Nat → Nat → Int
  n : Nat

namespace Matrix

/-- Embedding of the constructor `Matrix(size_t n)`: the rows come from `calloc`, so every
cell is zero. -/
def new (n : Nat) : Matrix := ⟨fun _ _ => 0, n⟩

/-- Embedding of `Matrix operator+(Matrix &other)`; the `int` sum wraps. -/
def add (this other : Matrix) : Matrix :=
  ⟨for_loop this.n (fun row result =>
      for_loop this.n (fun col result =>
        set result row col (wrap (this.matrix row col + other.matrix row col))) result)
    (new this.n).matrix, this.n⟩

/-- Embedding of `Matrix operator-(Matrix &other)`; the `int` difference wraps. -/
def sub (this other : Matrix) : Matrix :=
  ⟨for_loop this.n (fun row result =>
      for_loop this.n (fun col result =>
        set result row col (wrap (this.matrix row col - other.matrix row col))) result)
    (new this.n).matrix, this.n⟩

/-- Embedding of `Matrix::traditional_multiply`; the `int` product and the `int` accumulator
`sum` wrap. -/
def traditional_multiply (first second : Matrix) : Matrix :=
  ⟨for_loop first.n (fun row result =>
      for_loop first.n (fun col result =>
        let sum := for_loop first.n
          (fun k sum => wrap (sum + wrap (first.matrix row k * second.matrix k col))) 0
        set result row col sum) result)
    (new first.n).matrix, first.n⟩

end Matrix

/-- The cells of the eight quadrant matrices `a b c d` (of `first`) and `e f g h` (of
`second`) that the first loop nest of `strassen_multiply` fills. -/
structure Quadrants where
  a : Nat → Nat → Int
  b : Nat → Nat → Int
  c : Nat → Nat → Int
  d : Nat → Nat → Int
  e : Nat → Nat → Int
  f : Nat → Nat → Int
  g : Nat → Nat → Int
  h : Nat → Nat → Int

namespace Matrix

/-- Embedding of the first loop nest of `Matrix::strassen_multiply`, which copies the
quadrants of `first` into `a b c d` and those of `second` into `e f g h`; the eight matrices
come from `Matrix(size)`. -/
def strassen_split (first second : Matrix) (size : Nat) : Quadrants :=
  for_loop size (fun row q =>
    for_loop size (fun col (q : Quadrants) =>
      { a := set q.a row col (first.matrix row col)
        b := set q.b row col (first.matrix row (size + col))
        c := set q.c row col (first.matrix (size + row) col)
        d := set q.d row col (first.matrix (size + row) (size + col))
        e := set q.e row col (second.matrix row col)
        f := set q.f row col (second.matrix row (size + col))
        g := set q.g row col (second.matrix (size + row) col)
        h := set q.h row col (second.matrix (size + row) (size + col)) }) q)
    ⟨(new size).matrix, (new size).matrix, (new size).matrix, (new size).matrix,
      (new size).matrix, (new size).matrix, (new size).matrix, (new size).matrix⟩

/-- Embedding of the last loop nest of `Matrix::strassen_multiply`, which writes the four
quadrants into `result`, a matrix from `new Matrix(first.n)`. -/
def strassen_combine (n size : Nat) (quad1 quad2 quad3 quad4 : Matrix) : Matrix :=
  ⟨for_loop size (fun row result =>
      for_loop size (fun col result =>
        set (set (set (set result row col (quad1.matrix row col))
          row (col + size) (quad2.matrix row col))
          (row + size) col (quad3.matrix row col))
          (row + size) (col + size) (quad4.matrix row col)) result)
    (new n).matrix, n⟩

/-- Embedding of `Matrix::strassen_multiply`. -/
def strassen_multiply (first second : Matrix) : Matrix :=
  if first.n % 2 = 1 ∨ second.n % 2 = 1 ∨ first.n < 50 ∨ second.n < 50 then
    traditional_multiply first second
  else
    let size := first.n / 2
    let q := strassen_split first second size
    let a : Matrix := ⟨q.a, size⟩
    let b : Matrix := ⟨q.b, size⟩
    let c : Matrix := ⟨q.c, size⟩
    let d : Matrix := ⟨q.d, size⟩
    let e : Matrix := ⟨q.e, size⟩
    let f : Matrix := ⟨q.f, size⟩
    let g : Matrix := ⟨q.g, size⟩
    let h : Matrix := ⟨q.h, size⟩
    let temp := f.sub h
    let product1 := strassen_multiply a temp
    let temp2 := a.add b
    let product2 := strassen_multiply temp2 h
    let temp3 := c.add d
    let product3 := strassen_multiply temp3 e
    let temp4 := g.sub e
    let product4 := strassen_multiply d temp4
    let temp5 := a.add d
    let temp6 := e.add h
    let product5 := strassen_multiply temp5 temp6
    let temp7 := b.sub d
    let temp8 := g.add h
    let product6 := strassen_multiply temp7 temp8
    let temp9 := a.sub c
    let temp10 := e.add f
    let product7 := strassen_multiply temp9 temp10
    let quad1 := ((product5.add product4).sub product2).add product6
    let quad2 := product1.add product2
    let quad3 := product3.add product4
    let quad4 := ((product1.add product5).sub product3).sub product7
    strassen_combine first.n size quad1 quad2 quad3 quad4
termination_by first.n
decreasing_by
  all_goals simp_wf
  all_goals (try simp only [add, sub])
  all_goals omega

end Matrix

/-- The writes `matrix[row][col] = value` of a list, done in order. -/
def apply_writes (matrix : Nat → Nat → Int) (writes : List (Nat × Nat × Int)) :
    Nat → Nat → Int :=
  writes.foldl (fun m w => set m w.1 w.2.1 w.2.2) matrix

/-- Schoolbook entry in exact integer arithmetic: the sum over `k < n` of
`x[row][k] * y[k][col]`. -/
def dot (n : Nat) (x y : Nat → Nat → Int) (row col : Nat) : Int :=
  ∑ k in Finset.range n, x row k * y k col
end StrassenMatrixMultiplication

/-! # Theorems -/

namespace BinarySearchTree

/-! ## Basic facts about the embedding -/

namespace Tree

@[simp] theorem size_nil : size nil = 0 := rfl

@[simp] theorem size_node (k : Int) (v : String) (l r : Tree) (sz : Int) :
    size (node k v l r sz) = sz := rfl

theorem size_eq_count {t : Tree} (h : I2 t) : size t = (count t : Int) := by
  induction t with
  | nil => simp [count]
  | node k v l r sz ihl ihr =>
    obtain ⟨hsz, hl, hr⟩ := h
    rw [size_node, hsz, ihl hl, ihr hr]
    simp only [count]
    push_cast
    ring

theorem length_keys (t : Tree) : (keys t).length = count t := by
  induction t with
  | nil => simp [keys, count]
  | node k v l r sz ihl ihr => simp [keys, count, ihl, ihr]; omega

theorem size_eq_length_keys {t : Tree} (h : I2 t) : size t = ((keys t).length : Int) := by
  rw [size_eq_count h, length_keys]

theorem keys_eq_map_entries (t : Tree) : keys t = (entries t).map Prod.fst := by
  induction t with
  | nil => simp [keys, entries]
  | node k v l r sz ihl ihr => simp [keys, entries, ihl, ihr]

/-- Under I1 the in-order key sequence is strictly increasing. -/
theorem keys_sorted {t : Tree} (h : I1 t) : (keys t).Pairwise (· < ·) := by
  induction t with
  | nil => simp [keys]
  | node k v l r sz ihl ihr =>
    obtain ⟨hlt, hgt, hl, hr⟩ := h
    simp only [keys, List.pairwise_append, List.pairwise_cons]
    refine ⟨ihl hl, ⟨hgt, ihr hr⟩, ?_⟩
    intro a ha b hb
    rcases List.mem_cons.1 hb with rfl | hb
    · exact hlt a ha
    · exact lt_trans (hlt a ha) (hgt b hb)

theorem keys_nodup {t : Tree} (h : I1 t) : (keys t).Nodup :=
  (keys_sorted h).imp (fun hab => ne_of_lt hab)

/-! ### `insertRecursively` -/

theorem insertRecursively_lt (k : Int) (v : String) (l r : Tree) (sz : Int) {key : Int}
    (value : String) (h : key < k) :
    insertRecursively (node k v l r sz) key value =
      node k v (insertRecursively l key value) r
        (1 + size (insertRecursively l key value) + size r) := by
  simp [insertRecursively, h]

theorem insertRecursively_gt (k : Int) (v : String) (l r : Tree) (sz : Int) {key : Int}
    (value : String) (h : k < key) :
    insertRecursively (node k v l r sz) key value =
      node k v l (insertRecursively r key value)
        (1 + size l + size (insertRecursively r key value)) := by
  simp [insertRecursively, h, not_lt_of_gt h]

theorem insertRecursively_eq (k : Int) (v : String) (l r : Tree) (sz : Int) (value : String) :
    insertRecursively (node k v l r sz) k value = node k value l r (1 + size l + size r) := by
  simp [insertRecursively]

theorem mem_keys_insertRecursively (t : Tree) (key : Int) (value : String) (x : Int) :
    x ∈ keys (insertRecursively t key value) ↔ x = key ∨ x ∈ keys t := by
  induction t with
  | nil => simp [insertRecursively, keys]
  | node k v l r sz ihl ihr =>
    rcases lt_trichotomy key k with h | h | h
    · rw [insertRecursively_lt k v l r sz value h]
      simp only [keys, List.mem_append, List.mem_cons, ihl]
      tauto
    · subst h
      rw [insertRecursively_eq]
      simp only [keys, List.mem_append, List.mem_cons]
      tauto
    · rw [insertRecursively_gt k v l r sz value h]
      simp only [keys, List.mem_append, List.mem_cons, ihr]
      tauto

theorem I1_insertRecursively {t : Tree} (h : I1 t) (key : Int) (value : String) :
    I1 (insertRecursively t key value) := by
  induction t with
  | nil => simp [insertRecursively, I1, keys]
  | node k v l r sz ihl ihr =>
    obtain ⟨hlt, hgt, hl, hr⟩ := h
    rcases lt_trichotomy key k with h | h | h
    · rw [insertRecursively_lt k v l r sz value h]
      refine ⟨?_, hgt, ihl hl, hr⟩
      intro x hx
      rcases (mem_keys_insertRecursively l key value x).1 hx with rfl | hx
      · exact h
      · exact hlt x hx
    · subst h
      rw [insertRecursively_eq]
      exact ⟨hlt, hgt, hl, hr⟩
    · rw [insertRecursively_gt k v l r sz value h]
      refine ⟨hlt, ?_, hl, ihr hr⟩
      intro x hx
      rcases (mem_keys_insertRecursively r key value x).1 hx with rfl | hx
      · exact h
      · exact hgt x hx

theorem I2_insertRecursively {t : Tree} (h : I2 t) (key : Int) (value : String) :
    I2 (insertRecursively t key value) := by
  induction t with
  | nil => simp [insertRecursively, I2]
  | node k v l r sz ihl ihr =>
    obtain ⟨_, hl, hr⟩ := h
    rcases lt_trichotomy key k with h | h | h
    · rw [insertRecursively_lt k v l r sz value h]
      exact ⟨rfl, ihl hl, hr⟩
    · subst h
      rw [insertRecursively_eq]
      exact ⟨rfl, hl, hr⟩
    · rw [insertRecursively_gt k v l r sz value h]
      exact ⟨rfl, hl, ihr hr⟩

/-! ### `min`, `delete_min` and `delete_node` -/

theorem min_node_nil (k : Int) (v : String) (r : Tree) (sz : Int) :
    min (node k v nil r sz) = node k v nil r sz := rfl

theorem min_node_node (k : Int) (v : String) (lk : Int) (lv : String) (ll lr : Tree)
    (lsz : Int) (r : Tree) (sz : Int) :
    min (node k v (node lk lv ll lr lsz) r sz) = min (node lk lv ll lr lsz) := rfl

theorem delete_min_node_nil (k : Int) (v : String) (r : Tree) (sz : Int) :
    delete_min (node k v nil r sz) = r := rfl

theorem delete_min_node_node (k : Int) (v : String) (lk : Int) (lv : String) (ll lr : Tree)
    (lsz : Int) (r : Tree) (sz : Int) :
    delete_min (node k v (node lk lv ll lr lsz) r sz) =
      node k v (delete_min (node lk lv ll lr lsz)) r sz := rfl

/-- The minimum of a non-`NULL` tree is a node without left child. -/
theorem min_node_exists (k : Int) (v : String) (l r : Tree) (sz : Int) :
    ∃ sk sv sr ssz, min (node k v l r sz) = node sk sv nil sr ssz := by
  induction l generalizing k v r sz with
  | nil => exact ⟨k, v, r, sz, rfl⟩
  | node lk lv ll lr lsz ihl _ =>
    rw [min_node_node]
    exact ihl lk lv lr lsz

/-- The minimum node carries the first key of the in-order sequence, and `delete_min`
leaves the rest of that sequence. -/
theorem keys_eq_min_cons_delete_min {t : Tree} {sk : Int} {sv : String} {sl sr : Tree}
    {ssz : Int} (h : min t = node sk sv sl sr ssz) : keys t = sk :: keys (delete_min t) := by
  induction t with
  | nil => simp [min] at h
  | node k v l r sz ihl _ =>
    cases l with
    | nil =>
      rw [min_node_nil] at h
      injection h with hk
      rw [delete_min_node_nil, ← hk]
      simp [keys]
    | node lk lv ll lr lsz =>
      rw [min_node_node] at h
      rw [delete_min_node_node]
      simp only [keys] at ihl ⊢
      rw [ihl h]
      simp

theorem entries_eq_min_cons_delete_min {t : Tree} {sk : Int} {sv : String} {sl sr : Tree}
    {ssz : Int} (h : min t = node sk sv sl sr ssz) :
    entries t = (sk, sv) :: entries (delete_min t) := by
  induction t with
  | nil => simp [min] at h
  | node k v l r sz ihl _ =>
    cases l with
    | nil =>
      rw [min_node_nil] at h
      injection h with hk hv
      rw [delete_min_node_nil, ← hk, ← hv]
      simp [entries]
    | node lk lv ll lr lsz =>
      rw [min_node_node] at h
      rw [delete_min_node_node]
      simp only [entries] at ihl ⊢
      rw [ihl h]
      simp

theorem I1_delete_min {t : Tree} (h : I1 t) : I1 (delete_min t) := by
  induction t with
  | nil => exact h
  | node k v l r sz ihl _ =>
    obtain ⟨hlt, hgt, hl, hr⟩ := h
    cases l with
    | nil => exact hr
    | node lk lv ll lr lsz =>
      rw [delete_min_node_node]
      refine ⟨?_, hgt, ihl hl, hr⟩
      intro x hx
      obtain ⟨sk, sv, sr, ssz, hmin⟩ := min_node_exists lk lv ll lr lsz
      apply hlt
      rw [keys_eq_min_cons_delete_min hmin]
      exact List.mem_cons_of_mem _ hx

theorem delete_node_lt (uninit : String) (k : Int) (v : String) (l r : Tree) (sz : Int)
    {key : Int} (h : key < k) :
    delete_node uninit (node k v l r sz) key =
      node k v (delete_node uninit l key) r (1 + size (delete_node uninit l key) + size r) := by
  simp [delete_node, h]

theorem delete_node_gt (uninit : String) (k : Int) (v : String) (l r : Tree) (sz : Int)
    {key : Int} (h : k < key) :
    delete_node uninit (node k v l r sz) key =
      node k v l (delete_node uninit r key) (1 + size l + size (delete_node uninit r key)) := by
  simp [delete_node, h, not_lt_of_gt h]

theorem delete_node_eq_left_nil (uninit : String) (k : Int) (v : String) (r : Tree) (sz : Int) :
    delete_node uninit (node k v nil r sz) k = r := by
  simp [delete_node]

theorem delete_node_eq_right_nil (uninit : String) (k : Int) (v : String) (l : Tree) (sz : Int) :
    delete_node uninit (node k v l nil sz) k = l := by
  cases l <;> simp [delete_node]

theorem delete_node_eq_two (uninit : String) (k : Int) (v : String) (lk : Int) (lv : String)
    (ll lr : Tree) (lsz : Int) (rk : Int) (rv : String) (rl rr : Tree) (rsz : Int) (sz : Int)
    {sk : Int} {sv : String} {sl sr : Tree} {ssz : Int}
    (h : min (node rk rv rl rr rsz) = node sk sv sl sr ssz) :
    delete_node uninit (node k v (node lk lv ll lr lsz) (node rk rv rl rr rsz) sz) k =
      node sk uninit (node lk lv ll lr lsz) (delete_min (node rk rv rl rr rsz))
        (1 + size (node lk lv ll lr lsz) + size (delete_min (node rk rv rl rr rsz))) := by
  simp [delete_node, h]

/-- Under I1, `delete_node` removes the key from the in-order key sequence and keeps the
rest in place. -/
theorem keys_delete_node (uninit : String) {t : Tree} (h : I1 t) (key : Int) :
    keys (delete_node uninit t key) = (keys t).filter (fun x => decide (x ≠ key)) := by
  induction t with
  | nil => simp [delete_node, keys]
  | node k v l r sz ihl ihr =>
    obtain ⟨hlt, hgt, hl, hr⟩ := h
    have keepl : ∀ {a : Int}, k ≤ a → (keys l).filter (fun x => decide (x ≠ a)) = keys l := by
      intro a ha
      apply List.filter_eq_self.2
      intro x hx
      have := hlt x hx
      simp only [decide_eq_true_eq]
      omega
    have keepr : ∀ {a : Int}, a ≤ k → (keys r).filter (fun x => decide (x ≠ a)) = keys r := by
      intro a ha
      apply List.filter_eq_self.2
      intro x hx
      have := hgt x hx
      simp only [decide_eq_true_eq]
      omega
    rcases lt_trichotomy key k with hk | hk | hk
    · rw [delete_node_lt uninit k v l r sz hk]
      simp only [keys, List.filter_append, List.filter_cons, ihl hl, keepr (le_of_lt hk)]
      simp [ne_of_gt hk]
    · subst hk
      have hfilter : (keys (node key v l r sz)).filter (fun x => decide (x ≠ key)) =
          keys l ++ keys r := by
        simp only [keys, List.filter_append, List.filter_cons, keepl (le_refl key),
          keepr (le_refl key)]
        simp
      rw [hfilter]
      cases l with
      | nil => rw [delete_node_eq_left_nil]; simp [keys]
      | node lk lv ll lr lsz =>
        cases r with
        | nil => rw [delete_node_eq_right_nil]; simp [keys]
        | node rk rv rl rr rsz =>
          obtain ⟨sk, sv, sr, ssz, hmin⟩ := min_node_exists rk rv rl rr rsz
          rw [delete_node_eq_two uninit key v lk lv ll lr lsz rk rv rl rr rsz sz hmin]
          rw [keys_eq_min_cons_delete_min hmin]
          simp [keys]
    · rw [delete_node_gt uninit k v l r sz hk]
      simp only [keys, List.filter_append, List.filter_cons, ihr hr, keepl (le_of_lt hk)]
      simp [ne_of_lt hk]

theorem I1_delete_node (uninit : String) {t : Tree} (h : I1 t) (key : Int) :
    I1 (delete_node uninit t key) := by
  induction t with
  | nil => simp [delete_node, I1]
  | node k v l r sz ihl ihr =>
    obtain ⟨hlt, hgt, hl, hr⟩ := h
    rcases lt_trichotomy key k with hk | hk | hk
    · rw [delete_node_lt uninit k v l r sz hk]
      refine ⟨?_, hgt, ihl hl, hr⟩
      intro x hx
      rw [keys_delete_node uninit hl] at hx
      exact hlt x (List.mem_filter.1 hx).1
    · subst hk
      cases l with
      | nil => rw [delete_node_eq_left_nil]; exact hr
      | node lk lv ll lr lsz =>
        cases r with
        | nil => rw [delete_node_eq_right_nil]; exact hl
        | node rk rv rl rr rsz =>
          obtain ⟨sk, sv, sr, ssz, hmin⟩ := min_node_exists rk rv rl rr rsz
          rw [delete_node_eq_two uninit key v lk lv ll lr lsz rk rv rl rr rsz sz hmin]
          have hkeys := keys_eq_min_cons_delete_min hmin
          have hsk : key < sk := hgt sk (by rw [hkeys]; exact List.mem_cons_self _ _)
          have hsorted := keys_sorted hr
          rw [hkeys] at hsorted
          refine ⟨?_, ?_, hl, I1_delete_min hr⟩
          · intro x hx
            exact lt_trans (hlt x hx) hsk
          · intro x hx
            exact (List.pairwise_cons.1 hsorted).1 x hx
    · rw [delete_node_gt uninit k v l r sz hk]
      refine ⟨hlt, ?_, hl, ihr hr⟩
      intro x hx
      rw [keys_delete_node uninit hr] at hx
      exact hgt x (List.mem_filter.1 hx).1

/-- Deleting a key that is not stored rebuilds the same tree, provided the stored sizes
satisfy I2 (the sizes on the search path are recomputed). -/
theorem delete_node_of_not_mem (uninit : String) {t : Tree} (h : I2 t) {key : Int}
    (hk : key ∉ keys t) : delete_node uninit t key = t := by
  induction t with
  | nil => simp [delete_node]
  | node k v l r sz ihl ihr =>
    obtain ⟨hsz, hl, hr⟩ := h
    simp only [keys, List.mem_append, List.mem_cons, not_or] at hk
    obtain ⟨hkl, hkk, hkr⟩ := hk
    rcases lt_trichotomy key k with hlt | heq | hgt
    · rw [delete_node_lt uninit k v l r sz hlt, ihl hl hkl, hsz]
    · exact absurd heq hkk
    · rw [delete_node_gt uninit k v l r sz hgt, ihr hr hkr, hsz]

/-! ### Effect of `insertRecursively` -/

@[simp] theorem size_skeleton (t : Tree) : size (skeleton t) = size t := by
  cases t <;> rfl

theorem mem_keys_of_mem_entries {t : Tree} {e : Int × String} (h : e ∈ entries t) :
    e.1 ∈ keys t := by
  rw [keys_eq_map_entries]
  exact List.mem_map_of_mem Prod.fst h

/-- Inserting a stored key changes neither shape, keys nor stored sizes. -/
theorem skeleton_insertRecursively_of_mem {t : Tree} (h1 : I1 t) (h2 : I2 t) {key : Int}
    (hk : key ∈ keys t) (value : String) :
    skeleton (insertRecursively t key value) = skeleton t := by
  induction t with
  | nil => simp [keys] at hk
  | node k v l r sz ihl ihr =>
    obtain ⟨hlt, hgt, hl1, hr1⟩ := h1
    obtain ⟨hsz, hl2, hr2⟩ := h2
    simp only [keys, List.mem_append, List.mem_cons] at hk
    rcases lt_trichotomy key k with h | h | h
    · have hkl : key ∈ keys l := by
        rcases hk with hk | hk | hk
        · exact hk
        · omega
        · have := hgt key hk
          omega
      rw [insertRecursively_lt k v l r sz value h]
      simp only [skeleton]
      rw [← size_skeleton (insertRecursively l key value), ihl hl1 hl2 hkl, size_skeleton, hsz]
    · subst h
      rw [insertRecursively_eq]
      simp only [skeleton, hsz]
    · have hkr : key ∈ keys r := by
        rcases hk with hk | hk | hk
        · have := hlt key hk
          omega
        · omega
        · exact hk
      rw [insertRecursively_gt k v l r sz value h]
      simp only [skeleton]
      rw [← size_skeleton (insertRecursively r key value), ihr hr1 hr2 hkr, size_skeleton, hsz]

/-- Inserting a stored key replaces the value of that key and keeps every other entry. -/
theorem entries_insertRecursively_of_mem {t : Tree} (h1 : I1 t) {key : Int}
    (hk : key ∈ keys t) (value : String) :
    entries (insertRecursively t key value) =
      (entries t).map (fun e => if e.1 = key then (key, value) else e) := by
  induction t with
  | nil => simp [keys] at hk
  | node k v l r sz ihl ihr =>
    obtain ⟨hlt, hgt, hl1, hr1⟩ := h1
    simp only [keys, List.mem_append, List.mem_cons] at hk
    have same : ∀ (t1 : Tree), (∀ x ∈ keys t1, x ≠ key) →
        (entries t1).map (fun e => if e.1 = key then (key, value) else e) = entries t1 := by
      intro t1 ht1
      refine (List.map_congr_left ?_).trans (List.map_id' _)
      intro e he
      simp [ht1 e.1 (mem_keys_of_mem_entries he)]
    have hlne : k ≤ key → ∀ x ∈ keys l, x ≠ key := fun hle x hx => by
      have := hlt x hx
      omega
    have hrne : key ≤ k → ∀ x ∈ keys r, x ≠ key := fun hle x hx => by
      have := hgt x hx
      omega
    rcases lt_trichotomy key k with h | h | h
    · have hkl : key ∈ keys l := by
        rcases hk with hk | hk | hk
        · exact hk
        · omega
        · exact absurd rfl (hrne (le_of_lt h) key hk)
      rw [insertRecursively_lt k v l r sz value h]
      simp only [entries, List.map_append, List.map_cons, ihl hl1 hkl, same r (hrne (le_of_lt h))]
      simp [ne_of_gt h]
    · subst h
      rw [insertRecursively_eq]
      simp only [entries, List.map_append, List.map_cons, same l (hlne (le_refl key)),
        same r (hrne (le_refl key))]
      simp
    · have hkr : key ∈ keys r := by
        rcases hk with hk | hk | hk
        · exact absurd rfl (hlne (le_of_lt h) key hk)
        · omega
        · exact hk
      rw [insertRecursively_gt k v l r sz value h]
      simp only [entries, List.map_append, List.map_cons, ihr hr1 hkr, same l (hlne (le_of_lt h))]
      simp [ne_of_lt h]

/-- Inserting a key that is not stored raises the stored root size by one, provided I2. -/
theorem size_insertRecursively_of_not_mem {t : Tree} (h2 : I2 t) {key : Int}
    (hk : key ∉ keys t) (value : String) :
    size (insertRecursively t key value) = size t + 1 := by
  induction t with
  | nil => simp [insertRecursively]
  | node k v l r sz ihl ihr =>
    obtain ⟨hsz, hl2, hr2⟩ := h2
    simp only [keys, List.mem_append, List.mem_cons, not_or] at hk
    obtain ⟨hkl, hkk, hkr⟩ := hk
    rcases lt_trichotomy key k with h | h | h
    · rw [insertRecursively_lt k v l r sz value h, size_node, size_node, ihl hl2 hkl, hsz]
      ring
    · exact absurd h hkk
    · rw [insertRecursively_gt k v l r sz value h, size_node, size_node, ihr hr2 hkr, hsz]
      ring

/-- Inserting a key that is not stored adds one entry and keeps all the others. -/
theorem entries_insertRecursively_of_not_mem (t : Tree) {key : Int}
    (hk : key ∉ keys t) (value : String) :
    (entries (insertRecursively t key value)).Perm ((key, value) :: entries t) := by
  induction t with
  | nil => simp [insertRecursively, entries]
  | node k v l r sz ihl ihr =>
    simp only [keys, List.mem_append, List.mem_cons, not_or] at hk
    obtain ⟨hkl, hkk, hkr⟩ := hk
    rcases lt_trichotomy key k with h | h | h
    · rw [insertRecursively_lt k v l r sz value h]
      simp only [entries]
      exact (ihl hkl).append_right _
    · exact absurd h hkk
    · rw [insertRecursively_gt k v l r sz value h]
      simp only [entries]
      have step1 : (entries l ++ (k, v) :: entries (insertRecursively r key value)).Perm
          (entries l ++ (k, v) :: (key, value) :: entries r) :=
        ((ihr hkr).cons (k, v)).append_left _
      have step2 : (entries l ++ (k, v) :: (key, value) :: entries r).Perm
          ((key, value) :: (entries l ++ (k, v) :: entries r)) := by
        have := @List.perm_middle _ (key, value) (entries l ++ [(k, v)]) (entries r)
        simpa using this
      exact step1.trans step2

/-! ### `rank` -/

theorem size_nonneg {t : Tree} (h : I2 t) : 0 ≤ size t := by
  rw [size_eq_count h]
  exact Int.ofNat_nonneg _

theorem rank_eq (k : Int) (v : String) (l r : Tree) (sz : Int) :
    rank (node k v l r sz) k = size l := by
  simp [rank]

theorem rank_lt (k : Int) (v : String) (l r : Tree) (sz : Int) {key : Int} (h : key < k) :
    rank (node k v l r sz) key = rank l key := by
  simp [rank, h, ne_of_lt h]

theorem rank_gt (k : Int) (v : String) (l r : Tree) (sz : Int) {key : Int} (h : k < key) :
    rank (node k v l r sz) key = size l + 1 + rank r key := by
  simp [rank, not_lt_of_gt h, ne_of_gt h]

/-- What `rank` computes on a tree satisfying I1 and I2: the number of stored keys below
`key`, minus one when `key` is not stored. -/
theorem rank_eq_countP {t : Tree} (h1 : I1 t) (h2 : I2 t) (key : Int) :
    rank t key =
      ((keys t).countP (fun x => decide (x < key)) : Int) - (if key ∈ keys t then 0 else 1) := by
  induction t with
  | nil => simp [rank, keys]
  | node k v l r sz ihl ihr =>
    obtain ⟨hlt, hgt, hl1, hr1⟩ := h1
    obtain ⟨hsz, hl2, hr2⟩ := h2
    have alll : k ≤ key → (keys l).countP (fun x => decide (x < key)) = (keys l).length := by
      intro hle
      apply List.countP_eq_length.2
      intro x hx
      have := hlt x hx
      simp only [decide_eq_true_eq]
      omega
    have noner : key ≤ k → (keys r).countP (fun x => decide (x < key)) = 0 := by
      intro hle
      apply List.countP_eq_zero.2
      intro x hx
      have := hgt x hx
      simp only [decide_eq_true_eq]
      omega
    have hnl : k ≤ key → key ∉ keys l := fun hle hx => by
      have := hlt key hx
      omega
    have hnr : key ≤ k → key ∉ keys r := fun hle hx => by
      have := hgt key hx
      omega
    rcases lt_trichotomy key k with h | h | h
    · rw [rank_lt k v l r sz h, ihl hl1 hl2]
      simp only [keys, List.countP_append, List.countP_cons, noner (le_of_lt h),
        List.mem_append, List.mem_cons]
      simp [not_lt_of_gt h, ne_of_lt h, hnr (le_of_lt h)]
    · subst h
      rw [rank_eq, size_eq_length_keys hl2]
      simp only [keys, List.countP_append, List.countP_cons, noner (le_refl key),
        alll (le_refl key), List.mem_append, List.mem_cons]
      simp
    · rw [rank_gt k v l r sz h, ihr hr1 hr2, size_eq_length_keys hl2]
      simp only [keys, List.countP_append, List.countP_cons, alll (le_of_lt h),
        List.mem_append, List.mem_cons]
      simp [h, ne_of_gt h, hnl (le_of_lt h)]
      ring

/-! ### `select` -/

theorem select_eq (k : Int) (v : String) (l r : Tree) (sz : Int) {i : Int}
    (h : i = 1 + size l) : select (node k v l r sz) i = k := by
  simp [select, h]

theorem select_lt (k : Int) (v : String) (l r : Tree) (sz : Int) {i : Int}
    (h : i < 1 + size l) : select (node k v l r sz) i = select l i := by
  simp [select, h, ne_of_lt h]

theorem select_gt (k : Int) (v : String) (l r : Tree) (sz : Int) {i : Int}
    (h : 1 + size l < i) : select (node k v l r sz) i = select r (i - (1 + size l)) := by
  simp [select, not_lt_of_gt h, ne_of_gt h]

/-- Inside the range `1 .. size`, `select` reads the in-order key sequence at index `i - 1`. -/
theorem select_eq_getElem {t : Tree} (h2 : I2 t) {i : Int} (hlo : 1 ≤ i) (hhi : i ≤ size t) :
    (keys t)[(i - 1).toNat]? = some (select t i) := by
  induction t generalizing i with
  | nil => simp at hhi; omega
  | node k v l r sz ihl ihr =>
    obtain ⟨hsz, hl2, hr2⟩ := h2
    have hl := size_eq_length_keys hl2
    have hr := size_eq_length_keys hr2
    rw [size_node, hsz] at hhi
    simp only [keys]
    rcases lt_trichotomy i (1 + size l) with h | h | h
    · rw [select_lt k v l r sz h, ← ihl hl2 hlo (by omega)]
      apply List.getElem?_append_left
      omega
    · rw [select_eq k v l r sz h]
      have hidx : (i - 1).toNat = (keys l).length := by omega
      rw [hidx, List.getElem?_append_right (le_refl _)]
      simp
    · rw [select_gt k v l r sz h, ← ihr hr2 (by omega) (by omega)]
      have hidx : (i - 1).toNat = (keys l).length + ((i - (1 + size l) - 1).toNat + 1) := by omega
      rw [hidx, List.getElem?_append_right (by omega)]
      simp

/-- Outside the range `1 .. size`, `select` returns `-1`. -/
theorem select_out_of_range {t : Tree} (h2 : I2 t) {i : Int} (h : i ≤ 0 ∨ size t < i) :
    select t i = -1 := by
  induction t generalizing i with
  | nil => rfl
  | node k v l r sz ihl ihr =>
    obtain ⟨hsz, hl2, hr2⟩ := h2
    have hl := size_nonneg hl2
    have hr := size_nonneg hr2
    rw [size_node, hsz] at h
    rcases h with h | h
    · rw [select_lt k v l r sz (by omega)]
      exact ihl hl2 (Or.inl h)
    · rw [select_gt k v l r sz (by omega)]
      exact ihr hr2 (Or.inr (by omega))

/-! ### `max` -/

theorem max_node_nil (k : Int) (v : String) (l : Tree) (sz : Int) :
    max (node k v l nil sz) = node k v l nil sz := by
  cases l <;> rfl

theorem max_node_node (k : Int) (v : String) (l : Tree) (rk : Int) (rv : String) (rl rr : Tree)
    (rsz : Int) (sz : Int) :
    max (node k v l (node rk rv rl rr rsz) sz) = max (node rk rv rl rr rsz) := by
  cases l <;> rfl

/-- The maximum of a non-`NULL` tree is a node without right child. -/
theorem max_node_exists (k : Int) (v : String) (l r : Tree) (sz : Int) :
    ∃ mk mv ml msz, max (node k v l r sz) = node mk mv ml nil msz := by
  induction r generalizing k v l sz with
  | nil => exact ⟨k, v, l, sz, max_node_nil k v l sz⟩
  | node rk rv rl rr rsz _ ihr =>
    rw [max_node_node]
    exact ihr rk rv rl rsz

/-- The maximum node carries the last key of the in-order sequence. -/
theorem keys_eq_append_max {t : Tree} {mk : Int} {mv : String} {ml mr : Tree} {msz : Int}
    (h : max t = node mk mv ml mr msz) : ∃ init, keys t = init ++ [mk] := by
  induction t with
  | nil => simp [max] at h
  | node k v l r sz _ ihr =>
    cases r with
    | nil =>
      rw [max_node_nil] at h
      injection h with hk
      exact ⟨keys l, by simp [keys, hk]⟩
    | node rk rv rl rr rsz =>
      rw [max_node_node] at h
      obtain ⟨init, hinit⟩ := ihr h
      refine ⟨keys l ++ k :: init, ?_⟩
      have : keys (node k v l (node rk rv rl rr rsz) sz) =
          keys l ++ k :: keys (node rk rv rl rr rsz) := rfl
      rw [this, hinit]
      simp

end Tree

/-! ### The public queries `min`, `max` and `select` -/

namespace BST

/-- On a non-empty tree `min()` is the first key of the in-order sequence. -/
theorem head_keys_eq_min {t : BST} (hne : t.root ≠ Tree.nil) :
    (Tree.keys t.root)[0]? = some t.min := by
  obtain ⟨root⟩ := t
  cases root with
  | nil => exact absurd rfl hne
  | node k v l r sz =>
    obtain ⟨sk, sv, sr, ssz, hmin⟩ := Tree.min_node_exists k v l r sz
    simp only [BST.min, hmin, Tree.keys_eq_min_cons_delete_min hmin]
    simp

/-- On a non-empty tree `max()` is the last key of the in-order sequence. -/
theorem last_keys_eq_max {t : BST} (hne : t.root ≠ Tree.nil) :
    (Tree.keys t.root)[(Tree.keys t.root).length - 1]? = some t.max := by
  obtain ⟨root⟩ := t
  cases root with
  | nil => exact absurd rfl hne
  | node k v l r sz =>
    obtain ⟨mk, mv, ml, msz, hmax⟩ := Tree.max_node_exists k v l r sz
    obtain ⟨init, hinit⟩ := Tree.keys_eq_append_max hmax
    simp only [BST.max, hmax, hinit]
    simp

end BST

namespace Tree

/-- In a strictly increasing list, the element of index `j` has exactly `j` smaller elements. -/
theorem countP_lt_of_sorted {l : List Int} (hs : l.Pairwise (· < ·)) {j : Nat} {x : Int}
    (hx : l[j]? = some x) : l.countP (fun y => decide (y < x)) = j := by
  induction l generalizing j with
  | nil => simp at hx
  | cons a l ih =>
    obtain ⟨ha, hl⟩ := List.pairwise_cons.1 hs
    cases j with
    | zero =>
      simp only [List.getElem?_cons_zero, Option.some.injEq] at hx
      subst hx
      rw [List.countP_cons, List.countP_eq_zero.2]
      · simp
      · intro y hy
        have := ha y hy
        simp only [decide_eq_true_eq]
        omega
    | succ j =>
      simp only [List.getElem?_cons_succ] at hx
      have hmem : x ∈ l := List.getElem?_mem hx
      have := ha x hmem
      rw [List.countP_cons, ih hl hx]
      simp [this]

theorem select_mem_keys {t : Tree} (h2 : I2 t) {i : Int} (hlo : 1 ≤ i) (hhi : i ≤ size t) :
    select t i ∈ keys t :=
  List.getElem?_mem (select_eq_getElem h2 hlo hhi)

/-! ### `floor` and `ceil` -/

theorem floor_loop_eq (k : Int) (v : String) (l r : Tree) (sz : Int) (floor : Int) :
    BST.floor_loop (node k v l r sz) k floor = k := by
  simp [BST.floor_loop]

theorem floor_loop_gt (k : Int) (v : String) (l r : Tree) (sz : Int) {arg_key : Int}
    (floor : Int) (h : arg_key < k) :
    BST.floor_loop (node k v l r sz) arg_key floor = BST.floor_loop l arg_key floor := by
  simp [BST.floor_loop, h, ne_of_gt h]

theorem floor_loop_lt (k : Int) (v : String) (l r : Tree) (sz : Int) {arg_key : Int}
    (floor : Int) (h : k < arg_key) :
    BST.floor_loop (node k v l r sz) arg_key floor = BST.floor_loop r arg_key k := by
  simp [BST.floor_loop, ne_of_lt h, not_lt_of_gt h]

/-- The loop of `floor` returns the candidate it was started with when no stored key is
`≤ arg_key`, and the largest such key otherwise. -/
theorem floor_loop_spec {t : Tree} (h1 : I1 t) (arg_key floor : Int) :
    ((∀ x ∈ keys t, arg_key < x) → BST.floor_loop t arg_key floor = floor) ∧
    ((∃ x ∈ keys t, x ≤ arg_key) →
      BST.floor_loop t arg_key floor ∈ keys t ∧ BST.floor_loop t arg_key floor ≤ arg_key ∧
        ∀ x ∈ keys t, x ≤ arg_key → x ≤ BST.floor_loop t arg_key floor) := by
  induction t generalizing floor with
  | nil => simp [BST.floor_loop, keys]
  | node k v l r sz ihl ihr =>
    obtain ⟨hlt, hgt, hl, hr⟩ := h1
    rcases lt_trichotomy arg_key k with h | h | h
    · rw [floor_loop_gt k v l r sz floor h]
      have hnr : ∀ x ∈ keys r, ¬ x ≤ arg_key := fun x hx => by
        have := hgt x hx
        omega
      constructor
      · intro hall
        exact (ihl hl floor).1 (fun x hx => hall x (by simp [keys, hx]))
      · rintro ⟨x, hx, hxle⟩
        simp only [keys, List.mem_append, List.mem_cons] at hx
        have hxl : x ∈ keys l := by
          rcases hx with hx | hx | hx
          · exact hx
          · omega
          · exact absurd hxle (hnr x hx)
        obtain ⟨hm, hle, hmax⟩ := (ihl hl floor).2 ⟨x, hxl, hxle⟩
        refine ⟨by simp [keys, hm], hle, ?_⟩
        intro y hy hyle
        simp only [keys, List.mem_append, List.mem_cons] at hy
        rcases hy with hy | hy | hy
        · exact hmax y hy hyle
        · omega
        · exact absurd hyle (hnr y hy)
    · subst h
      rw [floor_loop_eq]
      constructor
      · intro hall
        exact absurd (hall arg_key (by simp [keys])) (lt_irrefl _)
      · intro _
        exact ⟨by simp [keys], le_refl _, fun y _ hy => hy⟩
    · rw [floor_loop_lt k v l r sz floor h]
      constructor
      · intro hall
        have := hall k (by simp [keys])
        omega
      · intro _
        by_cases hex : ∃ x ∈ keys r, x ≤ arg_key
        · obtain ⟨hm, hle, hmax⟩ := (ihr hr k).2 hex
          have hkm := hgt _ hm
          refine ⟨by simp [keys, hm], hle, ?_⟩
          intro y hy hyle
          simp only [keys, List.mem_append, List.mem_cons] at hy
          rcases hy with hy | hy | hy
          · have := hlt y hy
            omega
          · omega
          · exact hmax y hy hyle
        · have hall : ∀ x ∈ keys r, arg_key < x := fun x hx =>
            not_le.1 (fun hle => hex ⟨x, hx, hle⟩)
          rw [(ihr hr k).1 hall]
          refine ⟨by simp [keys], le_of_lt h, ?_⟩
          intro y hy hyle
          simp only [keys, List.mem_append, List.mem_cons] at hy
          rcases hy with hy | hy | hy
          · exact le_of_lt (hlt y hy)
          · omega
          · have := hall y hy
            omega

theorem ceil_loop_eq (k : Int) (v : String) (l r : Tree) (sz : Int) (ceil : Int) :
    BST.ceil_loop (node k v l r sz) k ceil = k := by
  simp [BST.ceil_loop]

theorem ceil_loop_lt (k : Int) (v : String) (l r : Tree) (sz : Int) {arg_key : Int}
    (ceil : Int) (h : k < arg_key) :
    BST.ceil_loop (node k v l r sz) arg_key ceil = BST.ceil_loop r arg_key ceil := by
  simp [BST.ceil_loop, h, ne_of_lt h]

theorem ceil_loop_gt (k : Int) (v : String) (l r : Tree) (sz : Int) {arg_key : Int}
    (ceil : Int) (h : arg_key < k) :
    BST.ceil_loop (node k v l r sz) arg_key ceil = BST.ceil_loop l arg_key k := by
  simp [BST.ceil_loop, ne_of_gt h, not_lt_of_gt h]

/-- The loop of `ceil` returns the candidate it was started with when no stored key is
`≥ arg_key`, and the smallest such key otherwise. -/
theorem ceil_loop_spec {t : Tree} (h1 : I1 t) (arg_key ceil : Int) :
    ((∀ x ∈ keys t, x < arg_key) → BST.ceil_loop t arg_key ceil = ceil) ∧
    ((∃ x ∈ keys t, arg_key ≤ x) →
      BST.ceil_loop t arg_key ceil ∈ keys t ∧ arg_key ≤ BST.ceil_loop t arg_key ceil ∧
        ∀ x ∈ keys t, arg_key ≤ x → BST.ceil_loop t arg_key ceil ≤ x) := by
  induction t generalizing ceil with
  | nil => simp [BST.ceil_loop, keys]
  | node k v l r sz ihl ihr =>
    obtain ⟨hlt, hgt, hl, hr⟩ := h1
    rcases lt_trichotomy arg_key k with h | h | h
    · rw [ceil_loop_gt k v l r sz ceil h]
      constructor
      · intro hall
        have := hall k (by simp [keys])
        omega
      · intro _
        by_cases hex : ∃ x ∈ keys l, arg_key ≤ x
        · obtain ⟨hm, hle, hmin⟩ := (ihl hl k).2 hex
          have hkm := hlt _ hm
          refine ⟨by simp [keys, hm], hle, ?_⟩
          intro y hy hyle
          simp only [keys, List.mem_append, List.mem_cons] at hy
          rcases hy with hy | hy | hy
          · exact hmin y hy hyle
          · omega
          · have := hgt y hy
            omega
        · have hall : ∀ x ∈ keys l, x < arg_key := fun x hx =>
            not_le.1 (fun hle => hex ⟨x, hx, hle⟩)
          rw [(ihl hl k).1 hall]
          refine ⟨by simp [keys], le_of_lt h, ?_⟩
          intro y hy hyle
          simp only [keys, List.mem_append, List.mem_cons] at hy
          rcases hy with hy | hy | hy
          · have := hall y hy
            omega
          · omega
          · exact le_of_lt (hgt y hy)
    · subst h
      rw [ceil_loop_eq]
      constructor
      · intro hall
        exact absurd (hall arg_key (by simp [keys])) (lt_irrefl _)
      · intro _
        exact ⟨by simp [keys], le_refl _, fun y _ hy => hy⟩
    · rw [ceil_loop_lt k v l r sz ceil h]
      have hnl : ∀ x ∈ keys l, ¬ arg_key ≤ x := fun x hx => by
        have := hlt x hx
        omega
      constructor
      · intro hall
        exact (ihr hr ceil).1 (fun x hx => hall x (by simp [keys, hx]))
      · rintro ⟨x, hx, hxle⟩
        simp only [keys, List.mem_append, List.mem_cons] at hx
        have hxr : x ∈ keys r := by
          rcases hx with hx | hx | hx
          · exact absurd hxle (hnl x hx)
          · omega
          · exact hx
        obtain ⟨hm, hle, hmin⟩ := (ihr hr ceil).2 ⟨x, hxr, hxle⟩
        refine ⟨by simp [keys, hm], hle, ?_⟩
        intro y hy hyle
        simp only [keys, List.mem_append, List.mem_cons] at hy
        rcases hy with hy | hy | hy
        · exact absurd hyle (hnl y hy)
        · omega
        · exact hmin y hy hyle

end Tree

namespace BST

/-- On a non-empty tree satisfying I1, `min()` is stored and is a lower bound of the keys. -/
theorem min_mem_and_le {t : BST} (h1 : Tree.I1 t.root) (hne : t.root ≠ Tree.nil) :
    t.min ∈ Tree.keys t.root ∧ ∀ x ∈ Tree.keys t.root, t.min ≤ x := by
  obtain ⟨root⟩ := t
  cases root with
  | nil => exact absurd rfl hne
  | node k v l r sz =>
    obtain ⟨sk, sv, sr, ssz, hmin⟩ := Tree.min_node_exists k v l r sz
    have hkeys := Tree.keys_eq_min_cons_delete_min hmin
    have hs := Tree.keys_sorted h1
    simp only [BST.min, hmin]
    rw [hkeys] at hs ⊢
    refine ⟨List.mem_cons_self _ _, ?_⟩
    intro x hx
    rcases List.mem_cons.1 hx with rfl | hx
    · exact le_refl _
    · exact le_of_lt ((List.pairwise_cons.1 hs).1 x hx)

/-- On a non-empty tree satisfying I1, `max()` is stored and is an upper bound of the keys. -/
theorem max_mem_and_le {t : BST} (h1 : Tree.I1 t.root) (hne : t.root ≠ Tree.nil) :
    t.max ∈ Tree.keys t.root ∧ ∀ x ∈ Tree.keys t.root, x ≤ t.max := by
  obtain ⟨root⟩ := t
  cases root with
  | nil => exact absurd rfl hne
  | node k v l r sz =>
    obtain ⟨mk, mv, ml, msz, hmax⟩ := Tree.max_node_exists k v l r sz
    obtain ⟨init, hinit⟩ := Tree.keys_eq_append_max hmax
    have hs := Tree.keys_sorted h1
    simp only [BST.max, hmax]
    rw [hinit] at hs ⊢
    refine ⟨by simp, ?_⟩
    intro x hx
    rcases List.mem_append.1 hx with hx | hx
    · exact le_of_lt ((List.pairwise_append.1 hs).2.2 x hx mk (by simp))
    · simp only [List.mem_singleton] at hx
      exact le_of_eq hx

end BST

namespace Tree

theorem keysAtDepth_of_height_le {t : Tree} {d : Nat} (h : height t ≤ d) :
    keysAtDepth d t = [] := by
  induction t generalizing d with
  | nil => cases d <;> rfl
  | node k v l r sz ihl ihr =>
    cases d with
    | zero => simp [height] at h
    | succ d =>
      simp only [height, Nat.max_def] at h
      have hl : height l ≤ d := by split at h <;> omega
      have hr : height r ≤ d := by split at h <;> omega
      simp [keysAtDepth, ihl hl, ihr hr]

theorem levels_nil (n : Nat) : (List.range n).flatMap (fun d => keysAtDepth d nil) = [] := by
  induction n with
  | zero => rfl
  | succ n ih =>
    rw [List.range_succ, List.flatMap_append, ih]
    cases n <;> rfl

/-- Any number of levels that covers the height lists every key exactly once. -/
theorem levels_perm_keys {t : Tree} {n : Nat} (h : height t ≤ n) :
    ((List.range n).flatMap (fun d => keysAtDepth d t)).Perm (keys t) := by
  induction t generalizing n with
  | nil => rw [levels_nil]; exact List.Perm.refl _
  | node k v l r sz ihl ihr =>
    cases n with
    | zero => simp [height] at h
    | succ n =>
      simp only [height, Nat.max_def] at h
      have hl : height l ≤ n := by split at h <;> omega
      have hr : height r ≤ n := by split at h <;> omega
      rw [List.range_succ_eq_map, List.flatMap_cons, List.flatMap_map]
      show (k :: (List.range n).flatMap (fun d => keysAtDepth d l ++ keysAtDepth d r)).Perm
        (keys l ++ k :: keys r)
      have p1 := (List.flatMap_append_perm (List.range n) (fun d => keysAtDepth d l)
        (fun d => keysAtDepth d r)).symm
      have p2 := p1.trans ((ihl hl).append (ihr hr))
      have p3 : (k :: (keys l ++ keys r)).Perm (keys l ++ k :: keys r) :=
        (List.perm_middle).symm
      exact (List.Perm.cons k p2).trans p3

theorem breadth_first_perm_keys (t : Tree) : (breadth_first t).Perm (keys t) :=
  levels_perm_keys (le_refl _)

end Tree

namespace BST

open Tree

theorem queue_weight_nil : queue_weight [] = 0 := rfl

theorem queue_weight_cons (t : Tree) (q : List Tree) :
    queue_weight (t :: q) = 2 * count t + 1 + queue_weight q := by
  simp [queue_weight]

theorem queue_weight_append (q c : List Tree) :
    queue_weight (q ++ c) = queue_weight q + queue_weight c := by
  simp [queue_weight]

theorem queue_children_nil_cons (q : List Tree) :
    queue_children (Tree.nil :: q) = queue_children q := by
  simp [queue_children]

theorem queue_children_node_cons (k : Int) (v : String) (l r : Tree) (sz : Int) (q : List Tree) :
    queue_children (Tree.node k v l r sz :: q) = l :: r :: queue_children q := by
  simp [queue_children]

/-- Consuming a non-empty queue costs one iteration per queued pointer. -/
theorem queue_weight_children (q : List Tree) :
    queue_weight (queue_children q) + q.length = queue_weight q := by
  induction q with
  | nil => rfl
  | cons t q ih =>
    cases t with
    | nil =>
      rw [queue_children_nil_cons, queue_weight_cons]
      simp only [count, List.length_cons]
      omega
    | node k v l r sz =>
      rw [queue_children_node_cons, queue_weight_cons, queue_weight_cons, queue_weight_cons]
      simp only [count, List.length_cons]
      omega

theorem height_queue_children {q : List Tree} {n : Nat} (h : ∀ t ∈ q, height t ≤ n) :
    ∀ t ∈ queue_children q, height t ≤ n := by
  induction q with
  | nil => intro t ht; simp [queue_children] at ht
  | cons a q ih =>
    have hq : ∀ t ∈ q, height t ≤ n := fun t ht => h t (List.mem_cons_of_mem _ ht)
    cases a with
    | nil => rw [queue_children_nil_cons]; exact ih hq
    | node k v l r sz =>
      rw [queue_children_node_cons]
      have ha := h (Tree.node k v l r sz) (List.mem_cons_self _ _)
      simp only [height, Nat.max_def] at ha
      intro t ht
      rcases List.mem_cons.1 ht with rfl | ht
      · split at ha <;> omega
      rcases List.mem_cons.1 ht with rfl | ht
      · split at ha <;> omega
      · exact ih hq t ht

theorem queue_keysAtDepth_succ (d : Nat) (q : List Tree) :
    queue_keysAtDepth (d + 1) q = queue_keysAtDepth d (queue_children q) := by
  induction q with
  | nil => rfl
  | cons t q ih =>
    cases t with
    | nil =>
      rw [queue_children_nil_cons, ← ih]
      simp [queue_keysAtDepth, keysAtDepth]
    | node k v l r sz =>
      rw [queue_children_node_cons]
      simp only [queue_keysAtDepth, List.flatMap_cons] at ih ⊢
      rw [← ih]
      simp [keysAtDepth]

theorem queue_levels_succ (n : Nat) (q : List Tree) :
    queue_levels (n + 1) q = queue_keysAtDepth 0 q ++ queue_levels n (queue_children q) := by
  simp only [queue_levels]
  rw [List.range_succ_eq_map, List.flatMap_cons, List.flatMap_map]
  congr 1
  apply List.flatMap_congr
  intro d _
  exact queue_keysAtDepth_succ d q

theorem queue_keysAtDepth_of_height_le {q : List Tree} {n : Nat}
    (h : ∀ t ∈ q, height t ≤ n) : queue_keysAtDepth n q = [] := by
  induction q with
  | nil => rfl
  | cons t q ih =>
    simp only [queue_keysAtDepth, List.flatMap_cons] at ih ⊢
    rw [keysAtDepth_of_height_le (h t (List.mem_cons_self _ _)),
      ih (fun t ht => h t (List.mem_cons_of_mem _ ht))]
    rfl

/-- Levels beyond the height of every queued tree add nothing. -/
theorem queue_levels_stable {q : List Tree} {n : Nat} (h : ∀ t ∈ q, height t ≤ n) :
    queue_levels (n + 1) q = queue_levels n q := by
  simp only [queue_levels]
  rw [List.range_succ, List.flatMap_append]
  have := queue_keysAtDepth_of_height_le h
  simp [this]

theorem queue_levels_nil (n : Nat) : queue_levels n [] = [] := by
  induction n with
  | zero => rfl
  | succ n ih => rw [queue_levels_succ]; exact ih

/-- Consuming the queued pointers `q` in front of the pointers `c` emits the root keys of
`q` and leaves `c` followed by the children of `q` in the queue; `hrest` says what the loop
does with such a rest. -/
theorem level_order_loop_front (n N : Nat)
    (hrest : ∀ (c : List Tree) (fuel : Nat) (res : List Int), queue_weight c ≤ n →
      queue_weight c ≤ fuel → (∀ t ∈ c, height t ≤ N) →
      level_order_loop fuel c res = some (res ++ queue_levels N c))
    (q c : List Tree) (fuel : Nat) (res : List Int)
    (hn : queue_weight (c ++ queue_children q) ≤ n)
    (hfuel : queue_weight q + queue_weight c ≤ fuel)
    (hN : ∀ t ∈ c ++ queue_children q, height t ≤ N) :
    level_order_loop fuel (q ++ c) res =
      some (res ++ queue_keysAtDepth 0 q ++ queue_levels N (c ++ queue_children q)) := by
  induction q generalizing c fuel res with
  | nil =>
    have h := hrest c fuel res (by simpa [queue_children] using hn)
      (by simpa [queue_weight_nil] using hfuel) (by simpa [queue_children] using hN)
    simpa [queue_children, queue_keysAtDepth] using h
  | cons t q ih =>
    rw [queue_weight_cons] at hfuel
    obtain ⟨f, rfl⟩ : ∃ f, fuel = f + 1 := ⟨fuel - 1, by omega⟩
    cases t with
    | nil =>
      rw [queue_children_nil_cons] at hn hN
      have h := ih c f res hn (by omega) hN
      rw [queue_children_nil_cons]
      simpa [level_order_loop, queue_keysAtDepth, keysAtDepth] using h
    | node k v l r sz =>
      rw [queue_children_node_cons] at hn hN
      have e : c ++ l :: r :: queue_children q = (c ++ [l, r]) ++ queue_children q := by simp
      rw [e] at hn hN
      have hw : queue_weight (c ++ [l, r]) = queue_weight c + (2 * count l + 1) +
          (2 * count r + 1) := by
        rw [queue_weight_append, queue_weight_cons, queue_weight_cons, queue_weight_nil]
        omega
      have h := ih (c ++ [l, r]) f (res ++ [k]) hn (by simp only [count] at hfuel; omega) hN
      rw [queue_children_node_cons, e]
      simpa [level_order_loop, queue_keysAtDepth, keysAtDepth] using h

/-- With at least `queue_weight` iterations the loop empties the queue and appends the keys
of the queued trees level by level. -/
theorem level_order_loop_spec (n N : Nat) (c : List Tree) (fuel : Nat) (res : List Int)
    (hn : queue_weight c ≤ n) (hfuel : queue_weight c ≤ fuel)
    (hN : ∀ t ∈ c, height t ≤ N) :
    level_order_loop fuel c res = some (res ++ queue_levels N c) := by
  induction n generalizing c fuel res with
  | zero =>
    cases c with
    | nil => simp [level_order_loop, queue_levels_nil]
    | cons t c => rw [queue_weight_cons] at hn; omega
  | succ n ih =>
    cases hc : c with
    | nil => simp [level_order_loop, queue_levels_nil]
    | cons t c1 =>
      rw [← hc]
      have hlen : 0 < c.length := by rw [hc]; simp
      have hw := queue_weight_children c
      have h := level_order_loop_front n N (fun c fuel res h1 h2 h3 => ih c fuel res h1 h2 h3)
        c [] fuel res (by simp only [List.nil_append]; omega)
        (by simpa [queue_weight_nil] using hfuel)
        (by simpa using height_queue_children hN)
      rw [List.append_nil, List.nil_append, List.append_assoc, ← queue_levels_succ,
        queue_levels_stable hN] at h
      exact h

end BST

namespace Tree

theorem find_lt (k : Int) (v : String) (l r : Tree) (sz : Int) {key : Int} (h : key < k) :
    find (node k v l r sz) key = find l key := by
  simp [find, h]

theorem find_gt (k : Int) (v : String) (l r : Tree) (sz : Int) {key : Int} (h : k < key) :
    find (node k v l r sz) key = find r key := by
  simp [find, h, not_lt_of_gt h]

theorem find_eq (k : Int) (v : String) (l r : Tree) (sz : Int) :
    find (node k v l r sz) k = node k v l r sz := by
  simp [find]

/-- Effect of `delete_node` on the stored size of the root, for a stored key: nothing when
the successor lies strictly below the right child of the deleted node, one less otherwise. -/
theorem size_delete_node (uninit : String) {t : Tree} (h1 : I1 t) (h2 : I2 t) {key : Int}
    (hk : key ∈ keys t) :
    size (delete_node uninit t key) = size t - (if deep_successor t key then 0 else 1) := by
  induction t with
  | nil => simp [keys] at hk
  | node k v l r sz ihl ihr =>
    obtain ⟨hlt, hgt, hl1, hr1⟩ := h1
    obtain ⟨hsz, hl2, hr2⟩ := h2
    simp only [keys, List.mem_append, List.mem_cons] at hk
    rcases lt_trichotomy key k with h | h | h
    · have hkl : key ∈ keys l := by
        rcases hk with hk | hk | hk
        · exact hk
        · omega
        · have := hgt key hk
          omega
      have hd : deep_successor (node k v l r sz) key ↔ deep_successor l key := by
        simp only [deep_successor, find_lt k v l r sz h]
      simp only [hd]
      rw [delete_node_lt uninit k v l r sz h, size_node, size_node, ihl hl1 hl2 hkl, hsz]
      ring
    · subst h
      simp only [deep_successor, find_eq, left, right]
      cases l with
      | nil =>
        rw [delete_node_eq_left_nil, size_node, hsz]
        simp
      | node lk lv ll lr lsz =>
        cases r with
        | nil =>
          rw [delete_node_eq_right_nil, size_node, hsz]
          simp
        | node rk rv rl rr rsz =>
          obtain ⟨sk, sv, sr, ssz, hmin⟩ := min_node_exists rk rv rl rr rsz
          rw [delete_node_eq_two uninit key v lk lv ll lr lsz rk rv rl rr rsz sz hmin, size_node,
            size_node, hsz]
          cases rl with
          | nil =>
            rw [delete_min_node_nil]
            have := hr2.1
            simp only [size_nil, size_node] at this ⊢
            simp [left]
            omega
          | node ak av al ar asz =>
            rw [delete_min_node_node, size_node]
            simp [left]
    · have hkr : key ∈ keys r := by
        rcases hk with hk | hk | hk
        · have := hlt key hk
          omega
        · omega
        · exact hk
      have hd : deep_successor (node k v l r sz) key ↔ deep_successor r key := by
        simp only [deep_successor, find_gt k v l r sz h]
      simp only [hd]
      rw [delete_node_gt uninit k v l r sz h, size_node, size_node, ihr hr1 hr2 hkr, hsz]
      ring

/-- Under I1, deleting a stored key removes one element from the in-order key sequence. -/
theorem length_keys_delete_node (uninit : String) {t : Tree} (h1 : I1 t) {key : Int}
    (hk : key ∈ keys t) :
    (keys (delete_node uninit t key)).length + 1 = (keys t).length := by
  have hf : keys (delete_node uninit t key) = (keys t).erase key := by
    rw [keys_delete_node uninit h1, (keys_nodup h1).erase_eq_filter key]
    apply List.filter_congr
    intro x _
    by_cases hx : x = key <;> simp [hx]
  rw [hf, List.length_erase_of_mem hk]
  have : 0 < (keys t).length := List.length_pos_of_mem hk
  omega

end Tree

namespace BST

open Tree

/-- With enough iterations `level_order()` returns the breadth-first key sequence. -/
theorem level_order_of_fuel (t : BST) (fuel : Nat) (hfuel : 2 * count t.root + 1 ≤ fuel) :
    t.level_order fuel = some (breadth_first t.root) := by
  obtain ⟨root⟩ := t
  cases root with
  | nil => rfl
  | node k v l r sz =>
    have h := level_order_loop_spec (queue_weight [node k v l r sz])
      (height (node k v l r sz)) [node k v l r sz] fuel [] (le_refl _)
      (by simpa [queue_weight] using hfuel) (by simp)
    simpa [level_order, queue_levels, queue_keysAtDepth, breadth_first] using h

theorem length_breadth_first (t : Tree) : (breadth_first t).length = count t := by
  rw [(breadth_first_perm_keys t).length_eq, length_keys]

end BST

end BinarySearchTree

namespace MergeSort

/-! ### Segments -/

theorem segment_zero (a : Nat → Int) (s : Nat) : segment a s 0 = [] := rfl

theorem segment_succ (a : Nat → Int) (s n : Nat) :
    segment a s (n + 1) = a s :: segment a (s + 1) n := by
  simp [segment, List.range'_succ]

theorem segment_append (a : Nat → Int) (s n m : Nat) :
    segment a s (n + m) = segment a s n ++ segment a (s + n) m := by
  simp only [segment]
  rw [Nat.add_comm n m, ← List.range'_append_1 s n m, List.map_append]

theorem segment_congr {a b : Nat → Int} {s t n : Nat} (h : ∀ j, j < n → a (s + j) = b (t + j)) :
    segment a s n = segment b t n := by
  induction n generalizing s t with
  | zero => rfl
  | succ n ih =>
    rw [segment_succ, segment_succ, ih, show a s = b t from h 0 (Nat.succ_pos n)]
    intro j hj
    have := h (j + 1) (by omega)
    rw [show s + 1 + j = s + (j + 1) by omega, show t + 1 + j = t + (j + 1) by omega]
    exact this

theorem length_segment (a : Nat → Int) (s n : Nat) : (segment a s n).length = n := by
  simp [segment]

theorem segment_ofList (l : List Int) : segment (ofList l) 0 l.length = l := by
  apply List.ext_getElem
  · simp [segment]
  · intro i h1 h2
    simp [segment, ofList, List.getD_eq_getElem?_getD, h2]

/-! ### The loops of `merge` -/

theorem copy_rest_spec (array : Nat → Int) (end_ : Nat) (temp : Nat → Int)
    (index temp_index n : Nat) (hn : end_ + 1 - index = n) :
    (copy_rest array end_ temp index temp_index).2.2 = temp_index + n ∧
    ∀ j, (copy_rest array end_ temp index temp_index).1 j =
      if temp_index ≤ j ∧ j < temp_index + n then
        array (index + (j - temp_index)) else temp j := by
  induction n generalizing temp index temp_index with
  | zero =>
    rw [copy_rest, if_neg (by omega)]
    refine ⟨rfl, fun j => ?_⟩
    rw [if_neg (by omega)]
  | succ n ih =>
    rw [copy_rest, if_pos (by omega)]
    obtain ⟨h1, h2⟩ := ih (Function.update temp temp_index (array index)) (index + 1)
      (temp_index + 1) (by omega)
    refine ⟨by rw [h1]; omega, fun j => ?_⟩
    rw [h2 j]
    by_cases hj : j = temp_index
    · subst hj
      rw [if_neg (by omega), if_pos (by omega)]
      simp
    · rw [Function.update_noteq hj]
      by_cases hj2 : temp_index ≤ j ∧ j < temp_index + (n + 1)
      · rw [if_pos (by omega), if_pos hj2]
        congr 1
        omega
      · rw [if_neg (by omega), if_neg hj2]

theorem copy_back_spec (temp : Nat → Int) (end_two : Nat) (array : Nat → Int) (index : Nat) :
    ∀ j, copy_back temp end_two array index j =
      if index ≤ j ∧ j ≤ end_two then temp j else array j := by
  obtain ⟨n, hn⟩ : ∃ n, end_two + 1 - index = n := ⟨_, rfl⟩
  induction n generalizing array index with
  | zero =>
    intro j
    rw [copy_back, if_neg (by omega), if_neg (by omega)]
  | succ n ih =>
    intro j
    rw [copy_back, if_pos (by omega), ih _ (index + 1) (by omega) j]
    by_cases hj : j = index
    · subst hj
      rw [if_neg (by omega), if_pos (by omega)]
      simp
    · rw [Function.update_noteq hj]
      by_cases hj2 : index ≤ j ∧ j ≤ end_two
      · rw [if_pos (by omega), if_pos hj2]
      · rw [if_neg (by omega), if_neg hj2]

theorem merged_temp_left {array : Nat → Int} {end_one end_two : Nat} (temp : Nat → Int)
    {index1 index2 : Nat} (temp_index : Nat) (h1 : index1 ≤ end_one) (h2 : index2 ≤ end_two)
    (h : array index1 < array index2) :
    merged_temp array end_one end_two temp index1 index2 temp_index =
      merged_temp array end_one end_two (Function.update temp temp_index (array index1))
        (index1 + 1) index2 (temp_index + 1) := by
  simp only [merged_temp]
  rw [merge_loop, if_pos ⟨h1, h2⟩, if_pos h]

theorem merged_temp_right {array : Nat → Int} {end_one end_two : Nat} (temp : Nat → Int)
    {index1 index2 : Nat} (temp_index : Nat) (h1 : index1 ≤ end_one) (h2 : index2 ≤ end_two)
    (h : ¬ array index1 < array index2) :
    merged_temp array end_one end_two temp index1 index2 temp_index =
      merged_temp array end_one end_two (Function.update temp temp_index (array index2))
        index1 (index2 + 1) (temp_index + 1) := by
  simp only [merged_temp]
  rw [merge_loop, if_pos ⟨h1, h2⟩, if_neg h]

theorem merged_temp_exit {array : Nat → Int} {end_one end_two : Nat} (temp : Nat → Int)
    {index1 index2 : Nat} (temp_index : Nat) (h : ¬ (index1 ≤ end_one ∧ index2 ≤ end_two)) :
    merged_temp array end_one end_two temp index1 index2 temp_index =
      (copy_rest array end_two (copy_rest array end_one temp index1 temp_index).1 index2
        (copy_rest array end_one temp index1 temp_index).2.2).1 := by
  simp only [merged_temp]
  rw [merge_loop, if_neg h]

/-- The three `while` loops write the merge of the two remaining runs into `temp`, from
`temp_index` on, and leave the other cells of `temp` alone. -/
theorem merged_temp_spec (array : Nat → Int) (end_one end_two : Nat) (temp : Nat → Int)
    (index1 index2 temp_index n1 n2 : Nat) (hn1 : end_one + 1 - index1 = n1)
    (hn2 : end_two + 1 - index2 = n2) :
    (∀ j, j < temp_index ∨ temp_index + n1 + n2 ≤ j →
      merged_temp array end_one end_two temp index1 index2 temp_index j = temp j) ∧
    segment (merged_temp array end_one end_two temp index1 index2 temp_index) temp_index
        (n1 + n2) =
      List.merge (segment array index1 n1) (segment array index2 n2)
        (fun a b => decide (a < b)) := by
  obtain ⟨n, hn⟩ : ∃ n, n1 + n2 = n := ⟨_, rfl⟩
  induction n generalizing temp index1 index2 temp_index n1 n2 with
  | zero =>
    have e1 : n1 = 0 := by omega
    have e2 : n2 = 0 := by omega
    subst e1 e2
    obtain ⟨c1, c2⟩ := copy_rest_spec array end_one temp index1 temp_index 0 hn1
    rw [merged_temp_exit temp temp_index (by omega), c1]
    obtain ⟨_, c4⟩ := copy_rest_spec array end_two
      (copy_rest array end_one temp index1 temp_index).1 index2 (temp_index + 0) 0 hn2
    refine ⟨fun j _ => ?_, by simp [segment_zero]⟩
    rw [c4 j, if_neg (by omega), c2 j, if_neg (by omega)]
  | succ n ih =>
    by_cases hc : index1 ≤ end_one ∧ index2 ≤ end_two
    · obtain ⟨hc1, hc2⟩ := hc
      obtain ⟨m1, rfl⟩ : ∃ m1, n1 = m1 + 1 := ⟨n1 - 1, by omega⟩
      obtain ⟨m2, rfl⟩ : ∃ m2, n2 = m2 + 1 := ⟨n2 - 1, by omega⟩
      by_cases hlt : array index1 < array index2
      · rw [merged_temp_left temp temp_index hc1 hc2 hlt]
        obtain ⟨f, g⟩ := ih (Function.update temp temp_index (array index1)) (index1 + 1)
          index2 (temp_index + 1) m1 (m2 + 1) (by omega) hn2 (by omega)
        constructor
        · intro j hj
          rw [f j (by omega), Function.update_noteq (by omega)]
        · rw [show m1 + 1 + (m2 + 1) = (m1 + (m2 + 1)) + 1 by omega, segment_succ, g,
            f temp_index (by omega), Function.update_same, segment_succ array index1,
            segment_succ array index2, List.cons_merge_cons_pos _ _ _ (by simpa using hlt),
            ← segment_succ array index2]
      · rw [merged_temp_right temp temp_index hc1 hc2 hlt]
        obtain ⟨f, g⟩ := ih (Function.update temp temp_index (array index2)) index1
          (index2 + 1) (temp_index + 1) (m1 + 1) m2 hn1 (by omega) (by omega)
        constructor
        · intro j hj
          rw [f j (by omega), Function.update_noteq (by omega)]
        · rw [show m1 + 1 + (m2 + 1) = (m1 + 1 + m2) + 1 by omega, segment_succ, g,
            f temp_index (by omega), Function.update_same, segment_succ array index1,
            segment_succ array index2, List.cons_merge_cons_neg _ _ _ (by simpa using hlt),
            ← segment_succ array index1]
    · obtain ⟨c1, c2⟩ := copy_rest_spec array end_one temp index1 temp_index n1 hn1
      rw [merged_temp_exit temp temp_index hc, c1]
      obtain ⟨_, c4⟩ := copy_rest_spec array end_two
        (copy_rest array end_one temp index1 temp_index).1 index2 (temp_index + n1) n2 hn2
      constructor
      · intro j hj
        rw [c4 j, if_neg (by omega), c2 j, if_neg (by omega)]
      · rw [segment_append]
        have e1 : segment (copy_rest array end_two (copy_rest array end_one temp index1
            temp_index).1 index2 (temp_index + n1)).1 temp_index n1 =
            segment array index1 n1 := by
          apply segment_congr
          intro j hj
          rw [c4, if_neg (by omega), c2, if_pos (by omega)]
          congr 1
          omega
        have e2 : segment (copy_rest array end_two (copy_rest array end_one temp index1
            temp_index).1 index2 (temp_index + n1)).1 (temp_index + n1) n2 =
            segment array index2 n2 := by
          apply segment_congr
          intro j hj
          rw [c4, if_pos (by omega)]
          congr 1
          omega
        rw [e1, e2]
        have hz : n1 = 0 ∨ n2 = 0 := by omega
        rcases hz with hz | hz
        · subst hz
          simp [segment_zero]
        · subst hz
          simp [segment_zero]

/-- Merging two non-decreasing lists with the comparison of the source, `<`, gives a
non-decreasing list. -/
theorem pairwise_merge_lt {l1 l2 : List Int} (h1 : l1.Pairwise (· ≤ ·))
    (h2 : l2.Pairwise (· ≤ ·)) :
    (List.merge l1 l2 (fun a b => decide (a < b))).Pairwise (· ≤ ·) := by
  induction l1 generalizing l2 with
  | nil => simpa using h2
  | cons x xs ih1 =>
    induction l2 with
    | nil => simpa using h1
    | cons y ys ih2 =>
      obtain ⟨hx, hxs⟩ := List.pairwise_cons.1 h1
      obtain ⟨hy, hys⟩ := List.pairwise_cons.1 h2
      by_cases hlt : x < y
      · rw [List.cons_merge_cons_pos _ _ _ (by simpa using hlt)]
        refine List.pairwise_cons.2 ⟨?_, ih1 hxs h2⟩
        intro a ha
        rcases List.mem_append.1 ((List.merge_perm_append _).mem_iff.1 ha) with ha | ha
        · exact hx a ha
        · rcases List.mem_cons.1 ha with rfl | ha
          · exact le_of_lt hlt
          · exact le_trans (le_of_lt hlt) (hy a ha)
      · rw [List.cons_merge_cons_neg _ _ _ (by simpa using hlt)]
        refine List.pairwise_cons.2 ⟨?_, ih2 hys⟩
        intro a ha
        rcases List.mem_append.1 ((List.merge_perm_append _).mem_iff.1 ha) with ha | ha
        · rcases List.mem_cons.1 ha with rfl | ha
          · exact not_lt.1 hlt
          · exact le_trans (not_lt.1 hlt) (hx a ha)
        · exact hy a ha

/-- What `merge` does to the array: the cells `start_one .. end_two` receive the merge of the
two runs, the other cells are unchanged. -/
theorem merge_spec (array temp : Nat → Int) (s m e : Nat) (h1 : s ≤ m) (h2 : m < e) :
    segment (merge array temp s m (m + 1) e).1 s (e + 1 - s) =
      List.merge (segment array s (m + 1 - s)) (segment array (m + 1) (e - m))
        (fun a b => decide (a < b)) ∧
    ∀ j, j < s ∨ e < j → (merge array temp s m (m + 1) e).1 j = array j := by
  have hout : ∀ j, (merge array temp s m (m + 1) e).1 j =
      if s ≤ j ∧ j ≤ e then merged_temp array m e temp s (m + 1) s j else array j :=
    fun j => copy_back_spec _ e array s j
  obtain ⟨_, g⟩ := merged_temp_spec array m e temp s (m + 1) s (m + 1 - s) (e - m) rfl
    (by omega)
  constructor
  · rw [← g, show e + 1 - s = m + 1 - s + (e - m) by omega]
    apply segment_congr
    intro j hj
    rw [hout, if_pos (by omega)]
  · intro j hj
    rw [hout, if_neg (by omega)]

/-- What `sort` does to the array: the cells `start .. end` are rearranged in non-decreasing
order, the other cells are unchanged. -/
theorem sort_spec (array temp : Nat → Int) (s e : Nat) :
    (segment (sort array temp s e).1 s (e + 1 - s)).Pairwise (· ≤ ·) ∧
    (segment (sort array temp s e).1 s (e + 1 - s)).Perm (segment array s (e + 1 - s)) ∧
    ∀ j, j < s ∨ e < j → (sort array temp s e).1 j = array j := by
  obtain ⟨n, hn⟩ : ∃ n, e - s = n := ⟨_, rfl⟩
  induction n using Nat.strong_induction_on generalizing array temp s e with
  | _ n ih =>
    by_cases hse : s ≥ e
    · rw [sort, if_pos hse]
      refine ⟨?_, List.Perm.refl _, fun _ _ => rfl⟩
      have hlen : (segment array s (e + 1 - s)).length ≤ 1 := by
        rw [length_segment]
        omega
      match hl : segment array s (e + 1 - s), hlen with
      | [], _ => exact List.Pairwise.nil
      | [a], _ => exact List.pairwise_singleton _ _
    · rw [sort, if_neg hse]
      simp only []
      have hm1 : s ≤ (s + e) / 2 := by omega
      have hm2 : (s + e) / 2 < e := by omega
      generalize (s + e) / 2 = m at hm1 hm2
      obtain ⟨ls, lp, lf⟩ := ih (m - s) (by omega) array temp s m rfl
      generalize sort array temp s m = left at ls lp lf
      obtain ⟨rs, rp, rf⟩ := ih (e - (m + 1)) (by omega) left.1 left.2 (m + 1) e rfl
      generalize sort left.1 left.2 (m + 1) e = right at rs rp rf
      obtain ⟨ms, mf⟩ := merge_spec right.1 right.2 s m e hm1 hm2
      have hr1 : segment right.1 s (m + 1 - s) = segment left.1 s (m + 1 - s) :=
        segment_congr (fun j hj => rf (s + j) (by omega))
      have hl2 : segment left.1 (m + 1) (e - m) = segment array (m + 1) (e - m) :=
        segment_congr (fun j hj => lf (m + 1 + j) (by omega))
      have he : e + 1 - (m + 1) = e - m := by omega
      rw [he] at rs rp
      refine ⟨?_, ?_, ?_⟩
      · rw [ms]
        exact pairwise_merge_lt (by rw [hr1]; exact ls) rs
      · rw [ms, show e + 1 - s = m + 1 - s + (e - m) by omega, segment_append,
          show s + (m + 1 - s) = m + 1 by omega]
        refine (List.merge_perm_append _).trans (List.Perm.append ?_ ?_)
        · rw [hr1]
          exact lp
        · rw [← hl2]
          exact rp
      · intro j hj
        rw [mf j hj, rf j (by omega), lf j (by omega)]

end MergeSort

namespace StrassenMatrixMultiplication

/-! ### Loops -/

theorem for_loop_zero {σ : Type} (body : Nat → σ → σ) (s : σ) : for_loop 0 body s = s := rfl

theorem for_loop_succ {σ : Type} (n : Nat) (body : Nat → σ → σ) (s : σ) :
    for_loop (n + 1) body s = body n (for_loop n body s) := by
  simp [for_loop, List.range_succ]

theorem set_apply (m : Nat → Nat → Int) (row col : Nat) (v : Int) (r c : Nat) :
    set m row col v r c = if r = row ∧ c = col then v else m r c := by
  unfold set
  by_cases hr : r = row
  · subst hr
    by_cases hc : c = col
    · subst hc
      simp
    · simp [hc]
  · simp [Function.update_noteq hr, hr]

/-- A projection of the loop state that the body respects can be taken before the loop. -/
theorem for_loop_proj {σ τ : Type} (p : σ → τ) (n : Nat) (body : Nat → σ → σ)
    (body1 : Nat → τ → τ) (h : ∀ i s, p (body i s) = body1 i (p s)) (s : σ) :
    p (for_loop n body s) = for_loop n body1 (p s) := by
  induction n with
  | zero => rfl
  | succ n ih => rw [for_loop_succ, for_loop_succ, h, ih]

/-! ### Wrapped `int` arithmetic -/

/-- Wrapping does not change the residue modulo `2 ^ 32`. -/
theorem wrap_cast (x : Int) : ((wrap x : Int) : ZMod (2 ^ 32)) = (x : ZMod (2 ^ 32)) := by
  have h : wrap x = x - 2 ^ 32 * ((x + 2 ^ 31) / 2 ^ 32) := by
    unfold wrap
    rw [Int.emod_def]
    ring
  have h0 : ((2 ^ 32 : Int) : ZMod (2 ^ 32)) = 0 := by
    have := ZMod.natCast_self (2 ^ 32)
    exact_mod_cast this
  rw [h, Int.cast_sub, Int.cast_mul, h0, zero_mul, sub_zero]

theorem wrap_range (x : Int) : -2 ^ 31 ≤ wrap x ∧ wrap x < 2 ^ 31 := by
  unfold wrap
  have h1 := Int.emod_nonneg (x + 2 ^ 31) (by norm_num : (2 ^ 32 : Int) ≠ 0)
  have h2 := Int.emod_lt_of_pos (x + 2 ^ 31) (by norm_num : (0 : Int) < 2 ^ 32)
  constructor <;> omega

/-- Two exact results with the same residue modulo `2 ^ 32` wrap to the same `int`. -/
theorem wrap_eq_of_cast_eq {x y : Int} (h : (x : ZMod (2 ^ 32)) = (y : ZMod (2 ^ 32))) :
    wrap x = wrap y := by
  have hm : x ≡ y [ZMOD ((2 ^ 32 : Nat) : Int)] := (ZMod.intCast_eq_intCast_iff x y _).1 h
  have hm2 : (x + 2 ^ 31) % 2 ^ 32 = (y + 2 ^ 31) % 2 ^ 32 := by
    have := hm.add_right (2 ^ 31)
    simpa [Int.ModEq] using this
  unfold wrap
  rw [hm2]

theorem wrap_wrap (x : Int) : wrap (wrap x) = wrap x :=
  wrap_eq_of_cast_eq (wrap_cast x)

/-- A result that fits in an `int` is not changed by wrapping. -/
theorem wrap_of_range {x : Int} (hlo : -2 ^ 31 ≤ x) (hhi : x < 2 ^ 31) : wrap x = x := by
  unfold wrap
  rw [Int.emod_eq_of_lt (by omega) (by omega)]
  ring

/-- The accumulation loop of `traditional_multiply` ends with the wrapped exact sum. -/
theorem for_loop_sum (n : Nat) (g : Nat → Int) :
    for_loop n (fun k sum => wrap (sum + wrap (g k))) 0 = wrap (∑ k in Finset.range n, g k) := by
  induction n with
  | zero => rfl
  | succ n ih =>
    rw [for_loop_succ, ih, Finset.sum_range_succ]
    apply wrap_eq_of_cast_eq
    simp only [Int.cast_add, wrap_cast]

theorem foldl_flatMap {α β γ : Type} (l : List α) (g : α → List β) (f : γ → β → γ) (init : γ) :
    (l.flatMap g).foldl f init = l.foldl (fun acc x => (g x).foldl f acc) init := by
  induction l generalizing init with
  | nil => rfl
  | cons x l ih => simp [List.flatMap_cons, List.foldl_append, ih]

/-- A loop nest whose body is a list of cell writes does the writes of all iterations in
order. -/
theorem for_loop_nest_writes (n k : Nat) (ws : Nat → Nat → List (Nat × Nat × Int))
    (m0 : Nat → Nat → Int) :
    for_loop n (fun row m => for_loop k (fun col m => apply_writes m (ws row col)) m) m0 =
      apply_writes m0 ((List.range n).flatMap (fun row => (List.range k).flatMap (ws row))) := by
  simp only [for_loop, apply_writes, foldl_flatMap]

theorem apply_writes_frame (writes : List (Nat × Nat × Int)) (m0 : Nat → Nat → Int)
    (r c : Nat) (h : ∀ w ∈ writes, ¬ (w.1 = r ∧ w.2.1 = c)) :
    apply_writes m0 writes r c = m0 r c := by
  induction writes generalizing m0 with
  | nil => rfl
  | cons w ws ih =>
    have hw := h w (List.mem_cons_self _ _)
    show apply_writes (set m0 w.1 w.2.1 w.2.2) ws r c = m0 r c
    rw [ih _ (fun w1 h1 => h w1 (List.mem_cons_of_mem _ h1)), set_apply, if_neg]
    intro hh
    exact hw ⟨hh.1.symm, hh.2.symm⟩

/-- A cell that is written, and only ever with the value `v`, holds `v` in the end. -/
theorem apply_writes_eq (writes : List (Nat × Nat × Int)) (m0 : Nat → Nat → Int)
    (r c : Nat) (v : Int) (hex : ∃ w ∈ writes, w.1 = r ∧ w.2.1 = c)
    (hall : ∀ w ∈ writes, w.1 = r → w.2.1 = c → w.2.2 = v) :
    apply_writes m0 writes r c = v := by
  induction writes generalizing m0 with
  | nil => obtain ⟨w, hw, _⟩ := hex; cases hw
  | cons w ws ih =>
    show apply_writes (set m0 w.1 w.2.1 w.2.2) ws r c = v
    by_cases hex1 : ∃ w1 ∈ ws, w1.1 = r ∧ w1.2.1 = c
    · exact ih _ hex1 (fun w1 h1 => hall w1 (List.mem_cons_of_mem _ h1))
    · have hfr : ∀ w1 ∈ ws, ¬ (w1.1 = r ∧ w1.2.1 = c) := fun w1 h1 hh => hex1 ⟨w1, h1, hh⟩
      rw [apply_writes_frame ws _ r c hfr]
      obtain ⟨w1, hw1, hr, hc⟩ := hex
      rcases List.mem_cons.1 hw1 with rfl | hw1
      · rw [set_apply, if_pos ⟨hr.symm, hc.symm⟩]
        exact hall w1 (List.mem_cons_self _ _) hr hc
      · exact absurd ⟨hr, hc⟩ (hfr w1 hw1)

/-- Closed form of a loop nest `result[row][col] = f(row, col)`. -/
theorem fill_apply (n : Nat) (f : Nat → Nat → Int) (m0 : Nat → Nat → Int) (r c : Nat) :
    for_loop n (fun row m => for_loop n (fun col m => set m row col (f row col)) m) m0 r c =
      if r < n ∧ c < n then f r c else m0 r c := by
  have e := for_loop_nest_writes n n (fun row col => [(row, col, f row col)]) m0
  have e1 : for_loop n (fun row m => for_loop n (fun col m => set m row col (f row col)) m) m0 =
      apply_writes m0 ((List.range n).flatMap (fun row => (List.range n).flatMap
        (fun col => [(row, col, f row col)]))) := e
  rw [e1]
  by_cases h : r < n ∧ c < n
  · rw [if_pos h]
    apply apply_writes_eq
    · refine ⟨(r, c, f r c), ?_, rfl, rfl⟩
      simp only [List.mem_flatMap, List.mem_range, List.mem_singleton]
      exact ⟨r, h.1, c, h.2, rfl⟩
    · intro w hw hr hc
      simp only [List.mem_flatMap, List.mem_range, List.mem_singleton] at hw
      obtain ⟨row, _, col, _, rfl⟩ := hw
      simp only at hr hc
      subst hr hc
      rfl
  · rw [if_neg h]
    apply apply_writes_frame
    intro w hw hh
    simp only [List.mem_flatMap, List.mem_range, List.mem_singleton] at hw
    obtain ⟨row, hrow, col, hcol, rfl⟩ := hw
    simp only at hh
    exact h ⟨by omega, by omega⟩

/-! ### Cells of the matrix operations -/

namespace Matrix

theorem add_matrix (x y : Matrix) (r c : Nat) :
    (x.add y).matrix r c =
      if r < x.n ∧ c < x.n then wrap (x.matrix r c + y.matrix r c) else 0 :=
  fill_apply x.n (fun row col => wrap (x.matrix row col + y.matrix row col)) _ r c

theorem sub_matrix (x y : Matrix) (r c : Nat) :
    (x.sub y).matrix r c =
      if r < x.n ∧ c < x.n then wrap (x.matrix r c - y.matrix r c) else 0 :=
  fill_apply x.n (fun row col => wrap (x.matrix row col - y.matrix row col)) _ r c

theorem traditional_multiply_matrix (x y : Matrix) (r c : Nat) :
    (traditional_multiply x y).matrix r c =
      if r < x.n ∧ c < x.n then wrap (dot x.n x.matrix y.matrix r c) else 0 := by
  have h := fill_apply x.n (fun row col => for_loop x.n
    (fun k sum => wrap (sum + wrap (x.matrix row k * y.matrix k col))) 0) (new x.n).matrix r c
  simp only [for_loop_sum] at h
  simp only [traditional_multiply, dot, for_loop_sum]
  exact h

theorem strassen_split_cells (first second : Matrix) (size r c : Nat) (hr : r < size)
    (hc : c < size) :
    (strassen_split first second size).a r c = first.matrix r c ∧
    (strassen_split first second size).b r c = first.matrix r (size + c) ∧
    (strassen_split first second size).c r c = first.matrix (size + r) c ∧
    (strassen_split first second size).d r c = first.matrix (size + r) (size + c) ∧
    (strassen_split first second size).e r c = second.matrix r c ∧
    (strassen_split first second size).f r c = second.matrix r (size + c) ∧
    (strassen_split first second size).g r c = second.matrix (size + r) c ∧
    (strassen_split first second size).h r c = second.matrix (size + r) (size + c) := by
  have key : ∀ (p : Quadrants → Nat → Nat → Int) (f : Nat → Nat → Int),
      (∀ row col q, p { a := set q.a row col (first.matrix row col)
                        b := set q.b row col (first.matrix row (size + col))
                        c := set q.c row col (first.matrix (size + row) col)
                        d := set q.d row col (first.matrix (size + row) (size + col))
                        e := set q.e row col (second.matrix row col)
                        f := set q.f row col (second.matrix row (size + col))
                        g := set q.g row col (second.matrix (size + row) col)
                        h := set q.h row col (second.matrix (size + row) (size + col)) } =
          set (p q) row col (f row col)) →
      p ⟨(new size).matrix, (new size).matrix, (new size).matrix, (new size).matrix,
        (new size).matrix, (new size).matrix, (new size).matrix, (new size).matrix⟩ =
        (new size).matrix →
      p (strassen_split first second size) r c = f r c := by
    intro p f hp h0
    unfold strassen_split
    rw [for_loop_proj p size _
      (fun row m => for_loop size (fun col m => set m row col (f row col)) m)
      (fun row q => for_loop_proj p size _ (fun col m => set m row col (f row col))
        (fun col q => hp row col q) q), h0, fill_apply, if_pos ⟨hr, hc⟩]
  exact ⟨key Quadrants.a (fun row col => first.matrix row col) (fun _ _ _ => rfl) rfl,
    key Quadrants.b (fun row col => first.matrix row (size + col)) (fun _ _ _ => rfl) rfl,
    key Quadrants.c (fun row col => first.matrix (size + row) col) (fun _ _ _ => rfl) rfl,
    key Quadrants.d (fun row col => first.matrix (size + row) (size + col))
      (fun _ _ _ => rfl) rfl,
    key Quadrants.e (fun row col => second.matrix row col) (fun _ _ _ => rfl) rfl,
    key Quadrants.f (fun row col => second.matrix row (size + col)) (fun _ _ _ => rfl) rfl,
    key Quadrants.g (fun row col => second.matrix (size + row) col) (fun _ _ _ => rfl) rfl,
    key Quadrants.h (fun row col => second.matrix (size + row) (size + col))
      (fun _ _ _ => rfl) rfl⟩

theorem strassen_combine_cells (n size : Nat) (quad1 quad2 quad3 quad4 : Matrix)
    (r c : Nat) (hr : r < size) (hc : c < size) :
    (strassen_combine n size quad1 quad2 quad3 quad4).matrix r c = quad1.matrix r c ∧
    (strassen_combine n size quad1 quad2 quad3 quad4).matrix r (c + size) = quad2.matrix r c ∧
    (strassen_combine n size quad1 quad2 quad3 quad4).matrix (r + size) c = quad3.matrix r c ∧
    (strassen_combine n size quad1 quad2 quad3 quad4).matrix (r + size) (c + size) =
      quad4.matrix r c := by
  have e : (strassen_combine n size quad1 quad2 quad3 quad4).matrix =
      apply_writes (new n).matrix ((List.range size).flatMap (fun row =>
        (List.range size).flatMap (fun col =>
          [(row, col, quad1.matrix row col), (row, col + size, quad2.matrix row col),
            (row + size, col, quad3.matrix row col),
            (row + size, col + size, quad4.matrix row col)]))) :=
    for_loop_nest_writes size size (fun row col =>
      [(row, col, quad1.matrix row col), (row, col + size, quad2.matrix row col),
        (row + size, col, quad3.matrix row col),
        (row + size, col + size, quad4.matrix row col)]) (new n).matrix
  rw [e]
  have hmem : ∀ w, w ∈ (List.range size).flatMap (fun row =>
        (List.range size).flatMap (fun col =>
          [(row, col, quad1.matrix row col), (row, col + size, quad2.matrix row col),
            (row + size, col, quad3.matrix row col),
            (row + size, col + size, quad4.matrix row col)])) ↔
      ∃ row, row < size ∧ ∃ col, col < size ∧
        (w = (row, col, quad1.matrix row col) ∨ w = (row, col + size, quad2.matrix row col) ∨
          w = (row + size, col, quad3.matrix row col) ∨
          w = (row + size, col + size, quad4.matrix row col)) := by
    intro w
    simp only [List.mem_flatMap, List.mem_range, List.mem_cons, List.mem_singleton,
      List.not_mem_nil, or_false]
  refine ⟨?_, ?_, ?_, ?_⟩
  · apply apply_writes_eq
    · exact ⟨_, (hmem _).2 ⟨r, hr, c, hc, Or.inl rfl⟩, rfl, rfl⟩
    · intro w hw h1 h2
      obtain ⟨row, hrow, col, hcol, rfl | rfl | rfl | rfl⟩ := (hmem w).1 hw <;>
        simp only at h1 h2 ⊢
      · subst h1 h2; rfl
      · omega
      · omega
      · omega
  · apply apply_writes_eq
    · exact ⟨_, (hmem _).2 ⟨r, hr, c, hc, Or.inr (Or.inl rfl)⟩, rfl, rfl⟩
    · intro w hw h1 h2
      obtain ⟨row, hrow, col, hcol, rfl | rfl | rfl | rfl⟩ := (hmem w).1 hw <;>
        simp only at h1 h2 ⊢
      · omega
      · have h3 : col = c := by omega
        subst h1 h3; rfl
      · omega
      · omega
  · apply apply_writes_eq
    · exact ⟨_, (hmem _).2 ⟨r, hr, c, hc, Or.inr (Or.inr (Or.inl rfl))⟩, rfl, rfl⟩
    · intro w hw h1 h2
      obtain ⟨row, hrow, col, hcol, rfl | rfl | rfl | rfl⟩ := (hmem w).1 hw <;>
        simp only at h1 h2 ⊢
      · omega
      · omega
      · have h3 : row = r := by omega
        subst h2 h3; rfl
      · omega
  · apply apply_writes_eq
    · exact ⟨_, (hmem _).2 ⟨r, hr, c, hc, Or.inr (Or.inr (Or.inr rfl))⟩, rfl, rfl⟩
    · intro w hw h1 h2
      obtain ⟨row, hrow, col, hcol, rfl | rfl | rfl | rfl⟩ := (hmem w).1 hw <;>
        simp only at h1 h2 ⊢
      · omega
      · omega
      · omega
      · have h3 : row = r := by omega
        have h4 : col = c := by omega
        subst h3 h4; rfl

end Matrix

/-! ### Algebra of the schoolbook entry -/

theorem dot_congr {n : Nat} {x x1 y y1 : Nat → Nat → Int} {r c : Nat}
    (hx : ∀ k, k < n → x r k = x1 r k) (hy : ∀ k, k < n → y k c = y1 k c) :
    dot n x y r c = dot n x1 y1 r c := by
  unfold dot
  apply Finset.sum_congr rfl
  intro k hk
  rw [hx k (Finset.mem_range.1 hk), hy k (Finset.mem_range.1 hk)]

/-- Splitting the sum over `k < 2 * size` into the two halves. -/
theorem dot_two_mul (size : Nat) (x y : Nat → Nat → Int) (r c : Nat) :
    dot (2 * size) x y r c =
      dot size x y r c + dot size (fun i k => x i (size + k)) (fun k j => y (size + k) j) r c := by
  unfold dot
  rw [two_mul, Finset.sum_range_add]

namespace Matrix

theorem add_n (x y : Matrix) : (x.add y).n = x.n := rfl

theorem sub_n (x y : Matrix) : (x.sub y).n = x.n := rfl

/-- Strassen's product has the size of its arguments, and each of its cells is the wrapped
schoolbook entry. -/
theorem strassen_multiply_spec (n : Nat) (first second : Matrix) (h1 : first.n = n)
    (h2 : second.n = n) :
    (strassen_multiply first second).n = n ∧
    ∀ r c, r < n → c < n →
      (strassen_multiply first second).matrix r c =
        wrap (dot n first.matrix second.matrix r c) := by
  induction n using Nat.strong_induction_on generalizing first second with
  | _ n ih =>
    by_cases hbase : first.n % 2 = 1 ∨ second.n % 2 = 1 ∨ first.n < 50 ∨ second.n < 50
    · rw [strassen_multiply, if_pos hbase]
      refine ⟨h1, fun r c hr hc => ?_⟩
      rw [traditional_multiply_matrix, if_pos ⟨by omega, by omega⟩, h1]
    · rw [strassen_multiply, if_neg hbase]
      simp only []
      obtain ⟨s, hs⟩ : ∃ s, first.n / 2 = s := ⟨_, rfl⟩
      rw [hs]
      have hn : n = 2 * s := by omega
      have hlt : s < n := by omega
      have hq := strassen_split_cells first second s
      generalize strassen_split first second s = q at hq ⊢
      have qa : ∀ r c, r < s → c < s → q.a r c = first.matrix r c :=
        fun r c hr hc => (hq r c hr hc).1
      have qb : ∀ r c, r < s → c < s → q.b r c = first.matrix r (s + c) :=
        fun r c hr hc => (hq r c hr hc).2.1
      have qc : ∀ r c, r < s → c < s → q.c r c = first.matrix (s + r) c :=
        fun r c hr hc => (hq r c hr hc).2.2.1
      have qd : ∀ r c, r < s → c < s → q.d r c = first.matrix (s + r) (s + c) :=
        fun r c hr hc => (hq r c hr hc).2.2.2.1
      have qe : ∀ r c, r < s → c < s → q.e r c = second.matrix r c :=
        fun r c hr hc => (hq r c hr hc).2.2.2.2.1
      have qf : ∀ r c, r < s → c < s → q.f r c = second.matrix r (s + c) :=
        fun r c hr hc => (hq r c hr hc).2.2.2.2.2.1
      have qg : ∀ r c, r < s → c < s → q.g r c = second.matrix (s + r) c :=
        fun r c hr hc => (hq r c hr hc).2.2.2.2.2.2.1
      have qh : ∀ r c, r < s → c < s → q.h r c = second.matrix (s + r) (s + c) :=
        fun r c hr hc => (hq r c hr hc).2.2.2.2.2.2.2
      clear hq
      have hp1 := ih s hlt ⟨q.a, s⟩ (sub ⟨q.f, s⟩ ⟨q.h, s⟩) rfl rfl
      generalize strassen_multiply ⟨q.a, s⟩ (sub ⟨q.f, s⟩ ⟨q.h, s⟩) = p1 at hp1 ⊢
      have hp2 := ih s hlt (add ⟨q.a, s⟩ ⟨q.b, s⟩) ⟨q.h, s⟩ rfl rfl
      generalize strassen_multiply (add ⟨q.a, s⟩ ⟨q.b, s⟩) ⟨q.h, s⟩ = p2 at hp2 ⊢
      have hp3 := ih s hlt (add ⟨q.c, s⟩ ⟨q.d, s⟩) ⟨q.e, s⟩ rfl rfl
      generalize strassen_multiply (add ⟨q.c, s⟩ ⟨q.d, s⟩) ⟨q.e, s⟩ = p3 at hp3 ⊢
      have hp4 := ih s hlt ⟨q.d, s⟩ (sub ⟨q.g, s⟩ ⟨q.e, s⟩) rfl rfl
      generalize strassen_multiply ⟨q.d, s⟩ (sub ⟨q.g, s⟩ ⟨q.e, s⟩) = p4 at hp4 ⊢
      have hp5 := ih s hlt (add ⟨q.a, s⟩ ⟨q.d, s⟩) (add ⟨q.e, s⟩ ⟨q.h, s⟩) rfl rfl
      generalize strassen_multiply (add ⟨q.a, s⟩ ⟨q.d, s⟩) (add ⟨q.e, s⟩ ⟨q.h, s⟩) = p5
        at hp5 ⊢
      have hp6 := ih s hlt (sub ⟨q.b, s⟩ ⟨q.d, s⟩) (add ⟨q.g, s⟩ ⟨q.h, s⟩) rfl rfl
      generalize strassen_multiply (sub ⟨q.b, s⟩ ⟨q.d, s⟩) (add ⟨q.g, s⟩ ⟨q.h, s⟩) = p6
        at hp6 ⊢
      have hp7 := ih s hlt (sub ⟨q.a, s⟩ ⟨q.c, s⟩) (add ⟨q.e, s⟩ ⟨q.f, s⟩) rfl rfl
      generalize strassen_multiply (sub ⟨q.a, s⟩ ⟨q.c, s⟩) (add ⟨q.e, s⟩ ⟨q.f, s⟩) = p7
        at hp7 ⊢
      obtain ⟨F, hF⟩ : ∃ F : Nat → Nat → ZMod (2 ^ 32),
          ∀ r c, ((first.matrix r c : Int) : ZMod (2 ^ 32)) = F r c := ⟨_, fun _ _ => rfl⟩
      obtain ⟨G, hG⟩ : ∃ G : Nat → Nat → ZMod (2 ^ 32),
          ∀ r c, ((second.matrix r c : Int) : ZMod (2 ^ 32)) = G r c := ⟨_, fun _ _ => rfl⟩
      have e1 : ∀ r c, r < s → c < s → ((p1.matrix r c : Int) : ZMod (2 ^ 32)) =
          ∑ k in Finset.range s, F r k * (G k (s + c) - G (s + k) (s + c)) := by
        intro r c hr hc
        rw [hp1.2 r c hr hc, wrap_cast]
        simp only [dot, Int.cast_sum, Int.cast_mul]
        refine Finset.sum_congr rfl (fun k hk => ?_)
        have hk1 := Finset.mem_range.1 hk
        simp only [add_matrix, sub_matrix, hr, hc, hk1, and_self, if_true, wrap_cast,
          Int.cast_add, Int.cast_sub, qa r k hr hk1, qf k c hk1 hc, qh k c hk1 hc, hF, hG]
      have e2 : ∀ r c, r < s → c < s → ((p2.matrix r c : Int) : ZMod (2 ^ 32)) =
          ∑ k in Finset.range s, (F r k + F r (s + k)) * G (s + k) (s + c) := by
        intro r c hr hc
        rw [hp2.2 r c hr hc, wrap_cast]
        simp only [dot, Int.cast_sum, Int.cast_mul]
        refine Finset.sum_congr rfl (fun k hk => ?_)
        have hk1 := Finset.mem_range.1 hk
        simp only [add_matrix, sub_matrix, hr, hc, hk1, and_self, if_true, wrap_cast,
          Int.cast_add, Int.cast_sub, qa r k hr hk1, qb r k hr hk1, qh k c hk1 hc, hF, hG]
      have e3 : ∀ r c, r < s → c < s → ((p3.matrix r c : Int) : ZMod (2 ^ 32)) =
          ∑ k in Finset.range s, (F (s + r) k + F (s + r) (s + k)) * G k c := by
        intro r c hr hc
        rw [hp3.2 r c hr hc, wrap_cast]
        simp only [dot, Int.cast_sum, Int.cast_mul]
        refine Finset.sum_congr rfl (fun k hk => ?_)
        have hk1 := Finset.mem_range.1 hk
        simp only [add_matrix, sub_matrix, hr, hc, hk1, and_self, if_true, wrap_cast,
          Int.cast_add, Int.cast_sub, qc r k hr hk1, qd r k hr hk1, qe k c hk1 hc, hF, hG]
      have e4 : ∀ r c, r < s → c < s → ((p4.matrix r c : Int) : ZMod (2 ^ 32)) =
          ∑ k in Finset.range s, F (s + r) (s + k) * (G (s + k) c - G k c) := by
        intro r c hr hc
        rw [hp4.2 r c hr hc, wrap_cast]
        simp only [dot, Int.cast_sum, Int.cast_mul]
        refine Finset.sum_congr rfl (fun k hk => ?_)
        have hk1 := Finset.mem_range.1 hk
        simp only [add_matrix, sub_matrix, hr, hc, hk1, and_self, if_true, wrap_cast,
          Int.cast_add, Int.cast_sub, qd r k hr hk1, qg k c hk1 hc, qe k c hk1 hc, hF, hG]
      have e5 : ∀ r c, r < s → c < s → ((p5.matrix r c : Int) : ZMod (2 ^ 32)) =
          ∑ k in Finset.range s, (F r k + F (s + r) (s + k)) * (G k c + G (s + k) (s + c)) := by
        intro r c hr hc
        rw [hp5.2 r c hr hc, wrap_cast]
        simp only [dot, Int.cast_sum, Int.cast_mul]
        refine Finset.sum_congr rfl (fun k hk => ?_)
        have hk1 := Finset.mem_range.1 hk
        simp only [add_matrix, sub_matrix, hr, hc, hk1, and_self, if_true, wrap_cast,
          Int.cast_add, Int.cast_sub, qa r k hr hk1, qd r k hr hk1, qe k c hk1 hc, qh k c hk1 hc, hF, hG]
      have e6 : ∀ r c, r < s → c < s → ((p6.matrix r c : Int) : ZMod (2 ^ 32)) =
          ∑ k in Finset.range s, (F r (s + k) - F (s + r) (s + k)) * (G (s + k) c + G (s + k) (s + c)) := by
        intro r c hr hc
        rw [hp6.2 r c hr hc, wrap_cast]
        simp only [dot, Int.cast_sum, Int.cast_mul]
        refine Finset.sum_congr rfl (fun k hk => ?_)
        have hk1 := Finset.mem_range.1 hk
        simp only [add_matrix, sub_matrix, hr, hc, hk1, and_self, if_true, wrap_cast,
          Int.cast_add, Int.cast_sub, qb r k hr hk1, qd r k hr hk1, qg k c hk1 hc, qh k c hk1 hc, hF, hG]
      have e7 : ∀ r c, r < s → c < s → ((p7.matrix r c : Int) : ZMod (2 ^ 32)) =
          ∑ k in Finset.range s, (F r k - F (s + r) k) * (G k c + G k (s + c)) := by
        intro r c hr hc
        rw [hp7.2 r c hr hc, wrap_cast]
        simp only [dot, Int.cast_sum, Int.cast_mul]
        refine Finset.sum_congr rfl (fun k hk => ?_)
        have hk1 := Finset.mem_range.1 hk
        simp only [add_matrix, sub_matrix, hr, hc, hk1, and_self, if_true, wrap_cast,
          Int.cast_add, Int.cast_sub, qa r k hr hk1, qc r k hr hk1, qe k c hk1 hc, qf k c hk1 hc, hF, hG]
      have hdot : ∀ r c, ((dot n first.matrix second.matrix r c : Int) : ZMod (2 ^ 32)) =
          ∑ k in Finset.range s, F r k * G k c +
            ∑ k in Finset.range s, F r (s + k) * G (s + k) c := by
        intro r c
        rw [hn, two_mul]
        simp only [dot, Finset.sum_range_add, Int.cast_add, Int.cast_sum, Int.cast_mul, hF, hG]
      refine ⟨h1, fun r c hr hc => ?_⟩
      by_cases hrs : r < s
      · by_cases hcs : c < s
        · rw [(strassen_combine_cells first.n s _ _ _ _ r c hrs hcs).1]
          simp only [add_matrix, sub_matrix, add_n, sub_n, hp5.1, hrs, hcs, and_self, if_true]
          apply wrap_eq_of_cast_eq
          simp only [Int.cast_add, Int.cast_sub, wrap_cast, hdot, e2 r c hrs hcs,
            e4 r c hrs hcs, e5 r c hrs hcs, e6 r c hrs hcs]
          simp only [← Finset.sum_add_distrib, ← Finset.sum_sub_distrib]
          refine Finset.sum_congr rfl (fun k _ => ?_)
          ring
        · obtain ⟨c1, rfl⟩ : ∃ c1, c = s + c1 := ⟨c - s, by omega⟩
          have hc1 : c1 < s := by omega
          have hcell := (strassen_combine_cells first.n s (((p5.add p4).sub p2).add p6)
            (p1.add p2) (p3.add p4) (((p1.add p5).sub p3).sub p7) r c1 hrs hc1).2.1
          rw [Nat.add_comm c1 s] at hcell
          rw [hcell]
          simp only [add_matrix, hp1.1, hrs, hc1, and_self, if_true]
          apply wrap_eq_of_cast_eq
          simp only [Int.cast_add, wrap_cast, hdot, e1 r c1 hrs hc1, e2 r c1 hrs hc1]
          simp only [← Finset.sum_add_distrib]
          refine Finset.sum_congr rfl (fun k _ => ?_)
          ring
      · obtain ⟨r1, rfl⟩ : ∃ r1, r = s + r1 := ⟨r - s, by omega⟩
        have hr1 : r1 < s := by omega
        by_cases hcs : c < s
        · have hcell := (strassen_combine_cells first.n s (((p5.add p4).sub p2).add p6)
            (p1.add p2) (p3.add p4) (((p1.add p5).sub p3).sub p7) r1 c hr1 hcs).2.2.1
          rw [Nat.add_comm r1 s] at hcell
          rw [hcell]
          simp only [add_matrix, hp3.1, hr1, hcs, and_self, if_true]
          apply wrap_eq_of_cast_eq
          simp only [Int.cast_add, wrap_cast, hdot, e3 r1 c hr1 hcs, e4 r1 c hr1 hcs]
          simp only [← Finset.sum_add_distrib]
          refine Finset.sum_congr rfl (fun k _ => ?_)
          ring
        · obtain ⟨c1, rfl⟩ : ∃ c1, c = s + c1 := ⟨c - s, by omega⟩
          have hc1 : c1 < s := by omega
          have hcell := (strassen_combine_cells first.n s (((p5.add p4).sub p2).add p6)
            (p1.add p2) (p3.add p4) (((p1.add p5).sub p3).sub p7) r1 c1 hr1 hc1).2.2.2
          rw [Nat.add_comm r1 s, Nat.add_comm c1 s] at hcell
          rw [hcell]
          simp only [add_matrix, sub_matrix, add_n, sub_n, hp1.1, hr1, hc1, and_self, if_true]
          apply wrap_eq_of_cast_eq
          simp only [Int.cast_add, Int.cast_sub, wrap_cast, hdot, e1 r1 c1 hr1 hc1,
            e3 r1 c1 hr1 hc1, e5 r1 c1 hr1 hc1, e7 r1 c1 hr1 hc1]
          simp only [← Finset.sum_add_distrib, ← Finset.sum_sub_distrib]
          refine Finset.sum_congr rfl (fun k _ => ?_)
          ring

end Matrix

end StrassenMatrixMultiplication

namespace BinarySearchTree

/-! ## The claims -/

open Tree

/-- C1 (code defect).  The claim says that `delete_node` returns a tree satisfying I2 at every
node.  On the driver tree, which satisfies I1 and I2, `delete_node(5)` takes the two-child
branch, `delete_min` walks through node 7 without rewriting its size, and the returned tree
violates I2, whatever the content of the uninitialised value field. -/
theorem delete_node_driver_violates_I2 (uninit : String) :
    I1 BST.driver.root ∧ I2 BST.driver.root ∧
      (BST.driver.delete_node uninit 5).root =
        node 6 uninit
          (node 3 "" (node 2 "" nil nil 1) (node 4 "" nil nil 1) 3)
          (node 7 "" nil (node 8 "" nil nil 1) 3) 7 ∧
      ¬ I2 (BST.driver.delete_node uninit 5).root := by
  refine ⟨by decide, by decide, rfl, ?_⟩
  intro h
  exact absurd h.2.2.1 (by decide)

/-- C2 (code defect).  The claim says that deleting a stored key lowers `size()` by one.  In
the driver scenario, `delete_node(2)` lowers `size()` from 7 to 6, and the following
`delete_node(5)` of the stored key 5 leaves `size()` at 6 although the tree satisfied I1 and
I2 before the call. -/
theorem delete_node_driver_size_unchanged (uninit : String) :
    I1 (BST.driver.delete_node uninit 2).root ∧ I2 (BST.driver.delete_node uninit 2).root ∧
      5 ∈ keys (BST.driver.delete_node uninit 2).root ∧
      (BST.driver.delete_node uninit 2).size = 6 ∧
      ((BST.driver.delete_node uninit 2).delete_node uninit 5).size = 6 := by
  have e : BST.driver.delete_node uninit 2 =
      ⟨node 5 "" (node 3 "" nil (node 4 "" nil nil 1) 2)
        (node 7 "" (node 6 "" nil nil 1) (node 8 "" nil nil 1) 3) 6⟩ := rfl
  rw [e]
  exact ⟨by decide, by decide, by decide, rfl, rfl⟩

/-- C3 (code defect).  The claim, like the comment on `rank`, says that `rank` returns `-1`
for a key that is not stored.  On the driver tree, which satisfies I1 and I2 and does not
store 9, `rank(9)` returns 6. -/
theorem rank_driver_absent_key :
    I1 BST.driver.root ∧ I2 BST.driver.root ∧ 9 ∉ keys BST.driver.root ∧
      BST.driver.rank 9 = 6 := by
  decide

/-- C4.  Order invariant: if the tree satisfies I1, then the tree after `insert(k, v)` and
the tree after `delete_node(k)` satisfy I1 again. -/
theorem insert_delete_node_preserve_I1 (t : BST) (k : Int) (v : String) (uninit : String)
    (h1 : I1 t.root) : I1 (t.insert k v).root ∧ I1 (t.delete_node uninit k).root :=
  ⟨I1_insertRecursively h1 k v, I1_delete_node uninit h1 k⟩

theorem insert_delete_node_preserve_I1_witness :
    I1 BST.driver.root ∧
      (I1 (BST.driver.insert 5 "five").root ∧ I1 (BST.driver.delete_node "" 5).root) :=
  ⟨by decide, insert_delete_node_preserve_I1 BST.driver 5 "five" "" (by decide)⟩

/-- C5.  Size invariant under insert: if the tree satisfies I2, then the tree after
`insert(k, v)` satisfies I2 at every node. -/
theorem insert_preserves_I2 (t : BST) (k : Int) (v : String) (h2 : I2 t.root) :
    I2 (t.insert k v).root :=
  I2_insertRecursively h2 k v

theorem insert_preserves_I2_witness :
    I2 BST.driver.root ∧ I2 (BST.driver.insert 1 "one").root :=
  ⟨by decide, insert_preserves_I2 BST.driver 1 "one" (by decide)⟩

/-- C6.  Effect of insert on a tree satisfying I1 and I2.  If `k` is stored, `insert(k, v)`
leaves `size()`, the shape, every key and every stored size unchanged (the trees agree once
values are forgotten) and the entries are the old ones with the value of `k` replaced by `v`.
If `k` is not stored, `size()` grows by exactly one and the entries are the old ones plus
`(k, v)`, so the keys are the old ones plus `k`. -/
theorem insert_effect (t : BST) (k : Int) (v : String) (h1 : I1 t.root) (h2 : I2 t.root) :
    (k ∈ keys t.root →
      (t.insert k v).size = t.size ∧
      skeleton (t.insert k v).root = skeleton t.root ∧
      entries (t.insert k v).root =
        (entries t.root).map (fun e => if e.1 = k then (k, v) else e)) ∧
    (k ∉ keys t.root →
      (t.insert k v).size = t.size + 1 ∧
      (keys (t.insert k v).root).Perm (k :: keys t.root) ∧
      (entries (t.insert k v).root).Perm ((k, v) :: entries t.root)) := by
  constructor
  · intro hk
    have hs := skeleton_insertRecursively_of_mem h1 h2 hk v
    refine ⟨?_, hs, entries_insertRecursively_of_mem h1 hk v⟩
    show size (insertRecursively t.root k v) = size t.root
    rw [← size_skeleton, hs, size_skeleton]
  · intro hk
    have hp := entries_insertRecursively_of_not_mem t.root hk v
    refine ⟨size_insertRecursively_of_not_mem h2 hk v, ?_, hp⟩
    have := hp.map Prod.fst
    simpa [BST.insert, keys_eq_map_entries] using this

theorem insert_effect_witness :
    (I1 BST.driver.root ∧ I2 BST.driver.root ∧ 6 ∈ keys BST.driver.root ∧
      ((BST.driver.insert 6 "six").size = BST.driver.size ∧
        skeleton (BST.driver.insert 6 "six").root = skeleton BST.driver.root ∧
        entries (BST.driver.insert 6 "six").root =
          (entries BST.driver.root).map (fun e => if e.1 = 6 then (6, "six") else e))) ∧
    (9 ∉ keys BST.driver.root ∧
      ((BST.driver.insert 9 "nine").size = BST.driver.size + 1 ∧
        (keys (BST.driver.insert 9 "nine").root).Perm (9 :: keys BST.driver.root) ∧
        (entries (BST.driver.insert 9 "nine").root).Perm
          ((9, "nine") :: entries BST.driver.root))) :=
  ⟨⟨by decide, by decide, by decide,
      (insert_effect BST.driver 6 "six" (by decide) (by decide)).1 (by decide)⟩,
    ⟨by decide, (insert_effect BST.driver 9 "nine" (by decide) (by decide)).2 (by decide)⟩⟩

/-- C7.  Delete removes exactly the requested key: if the tree satisfies I1 and stores `k`,
the in-order key sequence after `delete_node(k)` is the sequence before with `k` erased; `k`
is no longer stored and every other key is stored after the call exactly when it was
before. -/
theorem delete_node_removes_key (t : BST) (k : Int) (uninit : String) (h1 : I1 t.root)
    (_hk : k ∈ keys t.root) :
    keys (t.delete_node uninit k).root = (keys t.root).erase k ∧
      k ∉ keys (t.delete_node uninit k).root ∧
      ∀ x, x ≠ k → (x ∈ keys (t.delete_node uninit k).root ↔ x ∈ keys t.root) := by
  have hkeys : keys (t.delete_node uninit k).root =
      (keys t.root).filter (fun x => decide (x ≠ k)) := keys_delete_node uninit h1 k
  refine ⟨?_, ?_, ?_⟩
  · rw [hkeys, (keys_nodup h1).erase_eq_filter k]
    apply List.filter_congr
    intro x _
    by_cases hx : x = k <;> simp [hx]
  · rw [hkeys]
    simp
  · intro x hx
    rw [hkeys]
    simp [hx]

theorem delete_node_removes_key_witness :
    I1 BST.driver.root ∧ 2 ∈ keys BST.driver.root ∧
      (keys (BST.driver.delete_node "" 2).root = (keys BST.driver.root).erase 2 ∧
        2 ∉ keys (BST.driver.delete_node "" 2).root ∧
        ∀ x, x ≠ 2 → (x ∈ keys (BST.driver.delete_node "" 2).root ↔ x ∈ keys BST.driver.root)) ∧
      BST.level_order 13 (BST.driver.delete_node "" 2) = some [5, 3, 7, 4, 6, 8] :=
  ⟨by decide, by decide, delete_node_removes_key BST.driver 2 "" (by decide) (by decide),
    by decide⟩

/-- C8.  Deleting a key that is not stored is a no-op: if the tree satisfies I1 and I2 and
does not store `k`, then `delete_node(k)` returns the same tree (shape, keys, values and
stored sizes), so `size()` is unchanged. -/
theorem delete_node_absent_noop (t : BST) (k : Int) (uninit : String) (_h1 : I1 t.root)
    (h2 : I2 t.root) (hk : k ∉ keys t.root) :
    t.delete_node uninit k = t ∧ (t.delete_node uninit k).size = t.size := by
  have h : t.delete_node uninit k = t := by
    obtain ⟨root⟩ := t
    exact congrArg BST.mk (delete_node_of_not_mem uninit h2 hk)
  exact ⟨h, by rw [h]⟩

theorem delete_node_absent_noop_witness :
    I1 BST.driver.root ∧ I2 BST.driver.root ∧ 9 ∉ keys BST.driver.root ∧
      (BST.driver.delete_node "" 9 = BST.driver ∧
        (BST.driver.delete_node "" 9).size = BST.driver.size) :=
  ⟨by decide, by decide, by decide,
    delete_node_absent_noop BST.driver 9 "" (by decide) (by decide) (by decide)⟩

/-- C9, the example given with the claim.  On the driver tree the keys below 6 are 2, 3, 4
and 5, and `rank(6)` returns 4, not 3. -/
theorem rank_driver_six_ne_three :
    I1 BST.driver.root ∧ I2 BST.driver.root ∧ 6 ∈ keys BST.driver.root ∧
      (keys BST.driver.root).filter (fun x => decide (x < 6)) = [2, 3, 4, 5] ∧
      BST.driver.rank 6 = 4 ∧ BST.driver.rank 6 ≠ 3 := by
  decide

/-- C9 (amended example).  Rank of a stored key: if the tree satisfies I1 and I2 and stores `k`, then `rank(k)`
is the number of stored keys strictly less than `k`. -/
theorem rank_present (t : BST) (k : Int) (h1 : I1 t.root) (h2 : I2 t.root)
    (hk : k ∈ keys t.root) :
    t.rank k = (((keys t.root).filter (fun x => decide (x < k))).length : Int) := by
  have h := rank_eq_countP h1 h2 k
  rw [if_pos hk, sub_zero, List.countP_eq_length_filter] at h
  exact h

theorem rank_present_witness :
    I1 BST.driver.root ∧ I2 BST.driver.root ∧ 6 ∈ keys BST.driver.root ∧
      BST.driver.rank 6 = (((keys BST.driver.root).filter (fun x => decide (x < 6))).length : Int) ∧
      BST.driver.rank 6 = 4 :=
  ⟨by decide, by decide, by decide,
    rank_present BST.driver 6 (by decide) (by decide) (by decide), by decide⟩

/-- C10.  Select is the 1-indexed order statistic: if the tree satisfies I1 and I2, the
in-order key sequence is strictly increasing, `select(i)` is its element of index `i - 1`
when `1 ≤ i ≤ size()`, `select(i)` is `-1` when `i ≤ 0` or `i > size()`, and on a non-empty
tree `select(1) = min()` and `select(size()) = max()`. -/
theorem select_order_statistic (t : BST) (i : Int) (h1 : I1 t.root) (h2 : I2 t.root) :
    (keys t.root).Pairwise (· < ·) ∧
      (1 ≤ i → i ≤ t.size → (keys t.root)[(i - 1).toNat]? = some (t.select i)) ∧
      (i ≤ 0 ∨ t.size < i → t.select i = -1) ∧
      (t.root ≠ nil → t.select 1 = t.min ∧ t.select t.size = t.max) := by
  refine ⟨keys_sorted h1, fun hlo hhi => select_eq_getElem h2 hlo hhi,
    fun h => select_out_of_range h2 h, ?_⟩
  intro hne
  have hlen : t.size = ((keys t.root).length : Int) := size_eq_length_keys h2
  have hpos : 0 < (keys t.root).length := by
    cases hr : t.root with
    | nil => exact absurd hr hne
    | node k v l r sz => simp [keys]
  constructor
  · have h := select_eq_getElem h2 (le_refl (1 : Int)) (by rw [← BST.size, hlen]; omega)
    rw [show ((1 : Int) - 1).toNat = 0 from rfl, BST.head_keys_eq_min hne] at h
    exact (Option.some.inj h).symm
  · have h := select_eq_getElem h2 (i := t.size) (by rw [hlen]; omega) (le_refl _)
    rw [show (t.size - 1).toNat = (keys t.root).length - 1 by rw [hlen]; omega,
      BST.last_keys_eq_max hne] at h
    exact (Option.some.inj h).symm

theorem select_order_statistic_witness :
    I1 BST.driver.root ∧ I2 BST.driver.root ∧
      ((keys BST.driver.root).Pairwise (· < ·) ∧
        (1 ≤ (3 : Int) → 3 ≤ BST.driver.size →
          (keys BST.driver.root)[((3 : Int) - 1).toNat]? = some (BST.driver.select 3)) ∧
        ((3 : Int) ≤ 0 ∨ BST.driver.size < 3 → BST.driver.select 3 = -1) ∧
        (BST.driver.root ≠ nil →
          BST.driver.select 1 = BST.driver.min ∧
            BST.driver.select BST.driver.size = BST.driver.max)) ∧
      BST.driver.select 3 = 4 ∧ BST.driver.select 0 = -1 ∧ BST.driver.select 8 = -1 ∧
      BST.driver.select 1 = 2 ∧ BST.driver.select 7 = 8 :=
  ⟨by decide, by decide, select_order_statistic BST.driver 3 (by decide) (by decide),
    by decide, by decide, by decide, by decide, by decide⟩

/-- C11.  Rank and select are inverse on the valid range: if the tree satisfies I1 and I2 and
`1 ≤ i ≤ size()`, then `rank(select(i)) = i - 1`. -/
theorem rank_select (t : BST) (i : Int) (h1 : I1 t.root) (h2 : I2 t.root) (hlo : 1 ≤ i)
    (hhi : i ≤ t.size) : t.rank (t.select i) = i - 1 := by
  have hget := select_eq_getElem h2 hlo hhi
  have hmem : Tree.select t.root i ∈ keys t.root := List.getElem?_mem hget
  have hrank := rank_eq_countP h1 h2 (Tree.select t.root i)
  rw [if_pos hmem, sub_zero, countP_lt_of_sorted (keys_sorted h1) hget] at hrank
  show Tree.rank t.root (Tree.select t.root i) = i - 1
  rw [hrank]
  omega

theorem rank_select_witness :
    I1 BST.driver.root ∧ I2 BST.driver.root ∧ (1 : Int) ≤ 4 ∧ 4 ≤ BST.driver.size ∧
      BST.driver.rank (BST.driver.select 4) = 4 - 1 ∧ BST.driver.select 4 = 5 :=
  ⟨by decide, by decide, by decide, by decide,
    rank_select BST.driver 4 (by decide) (by decide) (by decide) (by decide), by decide⟩

/-- C12.  Floor: if the tree satisfies I1, then `floor(k)` is the largest stored key that is
`≤ k` when such a key exists, it is `k` itself when `k` is stored, and it is `-1` when every
stored key is greater than `k`, in particular on the empty tree. -/
theorem floor_spec (t : BST) (k : Int) (h1 : I1 t.root) :
    ((∃ x ∈ keys t.root, x ≤ k) →
      t.floor k ∈ keys t.root ∧ t.floor k ≤ k ∧ ∀ x ∈ keys t.root, x ≤ k → x ≤ t.floor k) ∧
    (k ∈ keys t.root → t.floor k = k) ∧
    ((∀ x ∈ keys t.root, k < x) → t.floor k = -1) ∧
    (t.root = nil → t.floor k = -1) := by
  have hspec := floor_loop_spec h1 k (-1)
  refine ⟨hspec.2, ?_, hspec.1, ?_⟩
  · intro hk
    obtain ⟨_, hle, hmax⟩ := hspec.2 ⟨k, hk, le_refl k⟩
    exact le_antisymm hle (hmax k hk (le_refl k))
  · intro hnil
    apply hspec.1
    rw [hnil]
    simp [keys]

theorem floor_spec_witness :
    I1 BST.driver.root ∧
      (((∃ x ∈ keys BST.driver.root, x ≤ 9) →
          BST.driver.floor 9 ∈ keys BST.driver.root ∧ BST.driver.floor 9 ≤ 9 ∧
            ∀ x ∈ keys BST.driver.root, x ≤ 9 → x ≤ BST.driver.floor 9) ∧
        (9 ∈ keys BST.driver.root → BST.driver.floor 9 = 9) ∧
        ((∀ x ∈ keys BST.driver.root, 9 < x) → BST.driver.floor 9 = -1) ∧
        (BST.driver.root = nil → BST.driver.floor 9 = -1)) ∧
      BST.driver.floor 1 = -1 ∧ BST.driver.floor 7 = 7 ∧ BST.driver.floor 9 = 8 :=
  ⟨by decide, floor_spec BST.driver 9 (by decide), by decide, by decide, by decide⟩

/-- C13.  Ceil: if the tree satisfies I1, then `ceil(k)` is the smallest stored key that is
`≥ k` when such a key exists, it is `k` itself when `k` is stored, and it is `-1` when every
stored key is less than `k`, in particular on the empty tree. -/
theorem ceil_spec (t : BST) (k : Int) (h1 : I1 t.root) :
    ((∃ x ∈ keys t.root, k ≤ x) →
      t.ceil k ∈ keys t.root ∧ k ≤ t.ceil k ∧ ∀ x ∈ keys t.root, k ≤ x → t.ceil k ≤ x) ∧
    (k ∈ keys t.root → t.ceil k = k) ∧
    ((∀ x ∈ keys t.root, x < k) → t.ceil k = -1) ∧
    (t.root = nil → t.ceil k = -1) := by
  have hspec := ceil_loop_spec h1 k (-1)
  refine ⟨hspec.2, ?_, hspec.1, ?_⟩
  · intro hk
    obtain ⟨_, hle, hmin⟩ := hspec.2 ⟨k, hk, le_refl k⟩
    exact le_antisymm (hmin k hk (le_refl k)) hle
  · intro hnil
    apply hspec.1
    rw [hnil]
    simp [keys]

theorem ceil_spec_witness :
    I1 BST.driver.root ∧
      (((∃ x ∈ keys BST.driver.root, 1 ≤ x) →
          BST.driver.ceil 1 ∈ keys BST.driver.root ∧ 1 ≤ BST.driver.ceil 1 ∧
            ∀ x ∈ keys BST.driver.root, 1 ≤ x → BST.driver.ceil 1 ≤ x) ∧
        (1 ∈ keys BST.driver.root → BST.driver.ceil 1 = 1) ∧
        ((∀ x ∈ keys BST.driver.root, x < 1) → BST.driver.ceil 1 = -1) ∧
        (BST.driver.root = nil → BST.driver.ceil 1 = -1)) ∧
      BST.driver.ceil 1 = 2 ∧ BST.driver.ceil 4 = 4 ∧ BST.driver.ceil 9 = -1 :=
  ⟨by decide, ceil_spec BST.driver 1 (by decide), by decide, by decide, by decide⟩

/-- C14.  Min and max: on a non-empty tree satisfying I1, `min()` is the smallest stored key
and `max()` is the largest stored key; on the empty tree both return `-1`. -/
theorem min_max_spec (t : BST) (h1 : I1 t.root) :
    (t.root ≠ nil →
      (t.min ∈ keys t.root ∧ ∀ x ∈ keys t.root, t.min ≤ x) ∧
      (t.max ∈ keys t.root ∧ ∀ x ∈ keys t.root, x ≤ t.max)) ∧
    (t.root = nil → t.min = -1 ∧ t.max = -1) := by
  refine ⟨fun hne => ⟨BST.min_mem_and_le h1 hne, BST.max_mem_and_le h1 hne⟩, ?_⟩
  intro hnil
  simp [BST.min, BST.max, hnil, Tree.min, Tree.max]

theorem min_max_spec_witness :
    (I1 BST.driver.root ∧ BST.driver.root ≠ nil ∧
      ((BST.driver.min ∈ keys BST.driver.root ∧ ∀ x ∈ keys BST.driver.root, BST.driver.min ≤ x) ∧
        (BST.driver.max ∈ keys BST.driver.root ∧
          ∀ x ∈ keys BST.driver.root, x ≤ BST.driver.max)) ∧
      BST.driver.min = 2 ∧ BST.driver.max = 8) ∧
    (I1 BST.empty.root ∧ BST.empty.root = nil ∧ (BST.empty.min = -1 ∧ BST.empty.max = -1)) :=
  ⟨⟨by decide, by decide, (min_max_spec BST.driver (by decide)).1 (by decide), by decide,
      by decide⟩,
    ⟨by decide, by decide, (min_max_spec BST.empty (by decide)).2 (by decide)⟩⟩

/-- C15.  Level order is breadth-first: for every tree, once the loop is given at least
`2 * count + 1` iterations it ends with an empty queue, and `level_order()` returns the keys
at depth 0, then depth 1, and so on, left to right within each depth; that sequence holds
the key of every node exactly once (it is a permutation of the in-order keys), and the
empty tree yields the empty list. -/
theorem level_order_breadth_first (t : BST) :
    (∀ fuel, 2 * count t.root + 1 ≤ fuel → t.level_order fuel = some (breadth_first t.root)) ∧
      (breadth_first t.root).Perm (keys t.root) ∧
      (t.root = nil → ∀ fuel, t.level_order fuel = some []) := by
  refine ⟨?_, breadth_first_perm_keys t.root, ?_⟩
  · intro fuel hfuel
    obtain ⟨root⟩ := t
    cases root with
    | nil => rfl
    | node k v l r sz =>
      have h := BST.level_order_loop_spec (BST.queue_weight [node k v l r sz])
        (height (node k v l r sz)) [node k v l r sz] fuel [] (le_refl _)
        (by simpa [BST.queue_weight] using hfuel) (by simp)
      simpa [BST.level_order, BST.queue_levels, BST.queue_keysAtDepth, breadth_first] using h
  · intro hnil fuel
    simp [BST.level_order, hnil]

theorem level_order_breadth_first_witness :
    ((2 * count BST.driver.root + 1 ≤ 15 →
        BST.driver.level_order 15 = some (breadth_first BST.driver.root)) ∧
      (breadth_first BST.driver.root).Perm (keys BST.driver.root) ∧
      (BST.empty.root = nil → ∀ fuel, BST.empty.level_order fuel = some [])) ∧
    2 * count BST.driver.root + 1 ≤ 15 ∧
    BST.driver.level_order 15 = some [5, 3, 7, 2, 4, 6, 8] ∧
    BST.driver.level_order 14 = none :=
  ⟨⟨(level_order_breadth_first BST.driver).1 15, (level_order_breadth_first BST.driver).2.1,
      (level_order_breadth_first BST.empty).2.2⟩,
    by decide, by decide, by decide⟩

/-- C20 (code defect).  The claim says that after a two-child deletion the replacing node
carries the key and the value of the successor, and that every other key keeps its value.
On the tree built by inserting (5, "five"), (3, "three"), (7, "seven"), `delete_node(5)`
puts a node with key 7 at the root whose value is the content of the fresh allocation: the
source copies `key`, `left` and `right` of the successor and never `value`. -/
theorem delete_node_two_children_value (uninit : String) :
    I1 (((BST.empty.insert 5 "five").insert 3 "three").insert 7 "seven").root ∧
      entries (((BST.empty.insert 5 "five").insert 3 "three").insert 7 "seven").root =
        [(3, "three"), (5, "five"), (7, "seven")] ∧
      ((((BST.empty.insert 5 "five").insert 3 "three").insert 7 "seven").delete_node uninit
          5).root = node 7 uninit (node 3 "three" nil nil 1) nil 2 ∧
      entries ((((BST.empty.insert 5 "five").insert 3 "three").insert 7 "seven").delete_node
          uninit 5).root = [(3, "three"), (7, uninit)] := by
  refine ⟨by decide, by decide, rfl, rfl⟩

/-- C21.  What `rank` computes for a key that is not stored: if the tree satisfies I1 and I2
and does not store `k`, then `rank(k)` is the number of stored keys strictly less than `k`,
minus one; so `rank(k)` is `-1` exactly when no stored key is smaller than `k`. -/
theorem rank_absent (t : BST) (k : Int) (h1 : I1 t.root) (h2 : I2 t.root)
    (hk : k ∉ keys t.root) :
    t.rank k = (((keys t.root).filter (fun x => decide (x < k))).length : Int) - 1 ∧
      (t.rank k = -1 ↔ ∀ x ∈ keys t.root, ¬ x < k) := by
  have h := rank_eq_countP h1 h2 k
  rw [if_neg hk] at h
  have hr : t.rank k = ((keys t.root).countP (fun x => decide (x < k)) : Int) - 1 := h
  refine ⟨by rw [hr, List.countP_eq_length_filter], ?_⟩
  rw [hr]
  constructor
  · intro h0
    have hz : (keys t.root).countP (fun x => decide (x < k)) = 0 := by omega
    intro x hx hlt
    exact absurd (decide_eq_true hlt) (List.countP_eq_zero.1 hz x hx)
  · intro hall
    have hz : (keys t.root).countP (fun x => decide (x < k)) = 0 :=
      List.countP_eq_zero.2 (fun x hx => by simpa using hall x hx)
    rw [hz]
    rfl

theorem rank_absent_witness :
    (I1 BST.driver.root ∧ I2 BST.driver.root ∧ 9 ∉ keys BST.driver.root ∧
      (BST.driver.rank 9 =
          (((keys BST.driver.root).filter (fun x => decide (x < 9))).length : Int) - 1 ∧
        (BST.driver.rank 9 = -1 ↔ ∀ x ∈ keys BST.driver.root, ¬ x < 9)) ∧
      BST.driver.rank 9 = 6) ∧
    (1 ∉ keys BST.driver.root ∧
      (BST.driver.rank 1 =
          (((keys BST.driver.root).filter (fun x => decide (x < 1))).length : Int) - 1 ∧
        (BST.driver.rank 1 = -1 ↔ ∀ x ∈ keys BST.driver.root, ¬ x < 1)) ∧
      BST.driver.rank 1 = -1) :=
  ⟨⟨by decide, by decide, by decide,
      rank_absent BST.driver 9 (by decide) (by decide) (by decide), by decide⟩,
    ⟨by decide, rank_absent BST.driver 1 (by decide) (by decide) (by decide), by decide⟩⟩

/-- C22.  Stored size after deleting a stored key from a tree satisfying I1 and I2.  If the
node of `k` has two children and its right child has a left child, `size()` after
`delete_node(k)` equals `size()` before, while the list that `level_order()` returns gets
shorter by one.  Otherwise (the right child has no left child, or the node has at most one
child) `size()` drops by exactly one. -/
theorem delete_node_stored_size (t : BST) (k : Int) (uninit : String) (h1 : I1 t.root)
    (h2 : I2 t.root) (hk : k ∈ keys t.root) :
    (deep_successor t.root k →
      (t.delete_node uninit k).size = t.size ∧
      ∀ fuel, 2 * count t.root + 1 ≤ fuel →
        ∃ before after, t.level_order fuel = some before ∧
          (t.delete_node uninit k).level_order fuel = some after ∧
          after.length + 1 = before.length) ∧
    (¬ deep_successor t.root k → (t.delete_node uninit k).size = t.size - 1) := by
  have hsize : (t.delete_node uninit k).size =
      t.size - (if deep_successor t.root k then 0 else 1) := size_delete_node uninit h1 h2 hk
  have hcount : count (t.delete_node uninit k).root + 1 = count t.root := by
    rw [← length_keys, ← length_keys]
    exact length_keys_delete_node uninit h1 hk
  refine ⟨fun hd => ⟨by rw [hsize, if_pos hd, sub_zero], fun fuel hfuel => ?_⟩,
    fun hd => by rw [hsize, if_neg hd]⟩
  refine ⟨breadth_first t.root, breadth_first (t.delete_node uninit k).root,
    BST.level_order_of_fuel t fuel hfuel,
    BST.level_order_of_fuel (t.delete_node uninit k) fuel (by omega), ?_⟩
  rw [BST.length_breadth_first, BST.length_breadth_first, hcount]

theorem delete_node_stored_size_witness :
    (I1 BST.driver.root ∧ I2 BST.driver.root ∧ 5 ∈ keys BST.driver.root ∧
      deep_successor BST.driver.root 5 ∧
      ((BST.driver.delete_node "" 5).size = BST.driver.size ∧
        ∀ fuel, 2 * count BST.driver.root + 1 ≤ fuel →
          ∃ before after, BST.driver.level_order fuel = some before ∧
            (BST.driver.delete_node "" 5).level_order fuel = some after ∧
            after.length + 1 = before.length) ∧
      BST.driver.size = 7 ∧ (BST.driver.delete_node "" 5).size = 7 ∧
      BST.driver.level_order 15 = some [5, 3, 7, 2, 4, 6, 8] ∧
      (BST.driver.delete_node "" 5).level_order 15 = some [6, 3, 7, 2, 4, 8]) ∧
    (7 ∈ keys BST.driver.root ∧ ¬ deep_successor BST.driver.root 7 ∧
      (BST.driver.delete_node "" 7).size = BST.driver.size - 1) ∧
    (2 ∈ keys BST.driver.root ∧ ¬ deep_successor BST.driver.root 2 ∧
      (BST.driver.delete_node "" 2).size = BST.driver.size - 1) :=
  ⟨⟨by decide, by decide, by decide, by decide,
      (delete_node_stored_size BST.driver 5 "" (by decide) (by decide) (by decide)).1
        (by decide),
      by decide, by decide, by decide, by decide⟩,
    ⟨by decide, by decide,
      (delete_node_stored_size BST.driver 7 "" (by decide) (by decide) (by decide)).2
        (by decide)⟩,
    ⟨by decide, by decide,
      (delete_node_stored_size BST.driver 2 "" (by decide) (by decide) (by decide)).2
        (by decide)⟩⟩

end BinarySearchTree

namespace KaratsubaMultiplication

/-- C16 (code defect).  The claim, like the comment on `multiply`, says that `multiply` returns
the product.  `multiply(123, 456)` returns 542088 and `multiply(100, 100)` returns 100000,
although the products 56088 and 10000 fit in 64 bits: when the smaller digit count `length`
is odd, the split is at `10 ^ (length / 2)` and the return expression scales `ac` by
`10 ^ length` instead of `10 ^ (2 * (length / 2))`.  The driver input, of even length, gives
the product. -/
theorem multiply_odd_length (fuel : Nat) :
    123 * 456 < 2 ^ 64 ∧ 123 * 456 = 56088 ∧ multiply (fuel + 3) 123 456 = some 542088 ∧
      multiply (fuel + 3) 100 100 = some 100000 ∧
      multiply (fuel + 4) 1234 5678 = some (1234 * 5678) :=
  ⟨by decide, rfl, rfl, rfl, rfl⟩

end KaratsubaMultiplication

namespace InversionCount

/-- C17 (code defect).  The header of the file defines an inversion as a pair `i < j` with
`A[i] > A[j]`.  The array `{1, 1}` has no inversion, and `inversion_count` returns 1 on it:
the `else` branch of `if (array[index1] < array[index2])` is also taken for equal cells and
counts them. -/
theorem inversion_count_equal_cells (temp : Nat → Int) :
    inversions (fun i => [1, 1].getD i 0) 2 = 0 ∧
      inversion_count temp (fun i => [1, 1].getD i 0) 2 = 1 := by
  refine ⟨by decide, ?_⟩
  simp [inversion_count, sort_and_count, count_split_inversions, count_loop]

end InversionCount

namespace MergeSort

/-- C18.  Merge sort sorts: for every array with `length ≥ 1` cells, after
`merge_sort(array, length)` the first `length` cells are in non-decreasing order and are a
permutation of the original ones, and the cells behind them are untouched, whatever the
uninitialised content of `temp`. -/
theorem merge_sort_sorts (temp array : Nat → Int) (length : Nat) (h : 0 < length) :
    (segment (merge_sort temp array length) 0 length).Pairwise (· ≤ ·) ∧
    (segment (merge_sort temp array length) 0 length).Perm (segment array 0 length) ∧
    ∀ j, length ≤ j → merge_sort temp array length j = array j := by
  have hs := sort_spec array temp 0 (length - 1)
  rw [show length - 1 + 1 - 0 = length by omega] at hs
  simp only [merge_sort, if_neg (Nat.pos_iff_ne_zero.1 h)]
  exact ⟨hs.1, hs.2.1, fun j hj => hs.2.2 j (Or.inr (by omega))⟩

theorem merge_sort_sorts_witness :
    0 < 10 ∧
    ((segment (merge_sort (fun _ => 0) (ofList [10, 9, 8, 8, 3, 0, 4, 3, 2, 1]) 10) 0
        10).Pairwise (· ≤ ·) ∧
      (segment (merge_sort (fun _ => 0) (ofList [10, 9, 8, 8, 3, 0, 4, 3, 2, 1]) 10) 0 10).Perm
        (segment (ofList [10, 9, 8, 8, 3, 0, 4, 3, 2, 1]) 0 10) ∧
      ∀ j, 10 ≤ j →
        merge_sort (fun _ => 0) (ofList [10, 9, 8, 8, 3, 0, 4, 3, 2, 1]) 10 j =
          ofList [10, 9, 8, 8, 3, 0, 4, 3, 2, 1] j) ∧
    segment (merge_sort (fun _ => 0) (ofList [10, 9, 8, 8, 3, 0, 4, 3, 2, 1]) 10) 0 10 =
      [0, 1, 2, 3, 3, 4, 8, 8, 9, 10] := by
  have h := merge_sort_sorts (fun _ => 0) (ofList [10, 9, 8, 8, 3, 0, 4, 3, 2, 1]) 10
    (by decide)
  refine ⟨by decide, h, ?_⟩
  have hp : (segment (ofList [10, 9, 8, 8, 3, 0, 4, 3, 2, 1]) 0 10).Perm
      [0, 1, 2, 3, 3, 4, 8, 8, 9, 10] := by decide
  exact List.eq_of_perm_of_sorted (h.2.1.trans hp) h.1 (by decide)

end MergeSort

namespace StrassenMatrixMultiplication

open Matrix

/-- C19.  Strassen agrees with the schoolbook product: for two matrices of the same size `n`,
`strassen_multiply` and `traditional_multiply` return matrices of size `n` with the same
entry at every row and column below `n`, in the wrapping `int` arithmetic of the program;
that entry is the 32-bit wrap of the exact sum over `k < n` of `first[row][k] * second[k][col]`,
so it is the exact sum whenever that sum fits in an `int`.  This covers the recursive case,
`n` even and `n ≥ 50`. -/
theorem strassen_multiply_eq_traditional_multiply (first second : Matrix)
    (h : first.n = second.n) :
    (strassen_multiply first second).n = (traditional_multiply first second).n ∧
    ∀ row col, row < first.n → col < first.n →
      (strassen_multiply first second).matrix row col =
        (traditional_multiply first second).matrix row col ∧
      (traditional_multiply first second).matrix row col =
        wrap (dot first.n first.matrix second.matrix row col) ∧
      (-2 ^ 31 ≤ dot first.n first.matrix second.matrix row col →
        dot first.n first.matrix second.matrix row col < 2 ^ 31 →
        (strassen_multiply first second).matrix row col =
          dot first.n first.matrix second.matrix row col) := by
  obtain ⟨hn, hcells⟩ := strassen_multiply_spec first.n first second rfl h.symm
  refine ⟨hn, fun row col hr hc => ?_⟩
  have ht : (traditional_multiply first second).matrix row col =
      wrap (dot first.n first.matrix second.matrix row col) := by
    rw [traditional_multiply_matrix, if_pos ⟨hr, hc⟩]
  refine ⟨(hcells row col hr hc).trans ht.symm, ht, fun hlo hhi => ?_⟩
  rw [hcells row col hr hc]
  exact wrap_of_range hlo hhi

theorem strassen_multiply_eq_traditional_multiply_witness :
    (Matrix.mk (fun r c => (r : Int) + c) 50).n = (Matrix.mk (fun r c => (r : Int) * c - 7) 50).n ∧
    ¬ ((50 : Nat) % 2 = 1 ∨ (50 : Nat) % 2 = 1 ∨ (50 : Nat) < 50 ∨ (50 : Nat) < 50) ∧
    ((strassen_multiply (Matrix.mk (fun r c => (r : Int) + c) 50)
        (Matrix.mk (fun r c => (r : Int) * c - 7) 50)).n =
      (traditional_multiply (Matrix.mk (fun r c => (r : Int) + c) 50)
        (Matrix.mk (fun r c => (r : Int) * c - 7) 50)).n ∧
    ∀ row col, row < 50 → col < 50 →
      (strassen_multiply (Matrix.mk (fun r c => (r : Int) + c) 50)
          (Matrix.mk (fun r c => (r : Int) * c - 7) 50)).matrix row col =
        (traditional_multiply (Matrix.mk (fun r c => (r : Int) + c) 50)
          (Matrix.mk (fun r c => (r : Int) * c - 7) 50)).matrix row col ∧
      (traditional_multiply (Matrix.mk (fun r c => (r : Int) + c) 50)
          (Matrix.mk (fun r c => (r : Int) * c - 7) 50)).matrix row col =
        wrap (dot 50 (fun r c => (r : Int) + c) (fun r c => (r : Int) * c - 7) row col) ∧
      (-2 ^ 31 ≤ dot 50 (fun r c => (r : Int) + c) (fun r c => (r : Int) * c - 7) row col →
        dot 50 (fun r c => (r : Int) + c) (fun r c => (r : Int) * c - 7) row col < 2 ^ 31 →
        (strassen_multiply (Matrix.mk (fun r c => (r : Int) + c) 50)
            (Matrix.mk (fun r c => (r : Int) * c - 7) 50)).matrix row col =
          dot 50 (fun r c => (r : Int) + c) (fun r c => (r : Int) * c - 7) row col)) ∧
    dot 2 (fun _ _ => 50000) (fun _ _ => 50000) 0 0 = 5000000000 ∧
    (traditional_multiply (Matrix.mk (fun _ _ => 50000) 2)
      (Matrix.mk (fun _ _ => 50000) 2)).matrix 0 0 = 705032704 ∧
    (strassen_multiply (Matrix.mk (fun _ _ => 50000) 2)
      (Matrix.mk (fun _ _ => 50000) 2)).matrix 0 0 = 705032704 :=
  ⟨rfl, by decide,
    strassen_multiply_eq_traditional_multiply (Matrix.mk (fun r c => (r : Int) + c) 50)
      (Matrix.mk (fun r c => (r : Int) * c - 7) 50) rfl,
    by decide, by decide, by rw [strassen_multiply, if_pos (by decide)]; decide⟩

end StrassenMatrixMultiplication
